import Mathlib

/-!
Verification of the coordination core of the Oxford-AI-Summit-2025-Local-Agents
repository (directory `demo/agents`), against its natural-language specification.

The Python sources are shallowly embedded:
* `demo/agents/core/communication.py` — `AgentCommunicationProtocol` and
  `AgentCoordinator` (handoffs, conversation log, dependency-ordered levels);
* `demo/agents/core/resilience.py` — `ResilientAgentWrapper` (retry loop,
  circuit breaker, fallbacks);
* `demo/agents/core/dynamic.py` — `PromptCache` (admission, lookup, eviction);
* `demo/agents/core/memory.py` — `AgentMemorySystem` (interaction rows,
  aggregate metrics, similarity retrieval).

Conventions: Python floats are embedded as `ℚ`; `datetime` values as integer
second counts; md5-hex cache keys as the hashed content itself (the digest is
a stable fingerprint of that content, so keying by the content is faithful up
to hash collisions); Python dicts as insertion-ordered association lists.
Functions are total; where the Python loops forever the embedding returns
`none` (justified by a fixpoint lemma next to the definition).
-/

/-- Lookup in an insertion-ordered association list (Python `dict.get(k)`). -/
def alGet {β : Type} (l : List (String × β)) (k : String) : Option β :=
  (l.find? (fun p => p.1 = k)).map (·.2)

/-- Lookup with default (Python `dict.get(k, d)`). -/
def alGetD {β : Type} (l : List (String × β)) (k : String) (d : β) : β :=
  (alGet l k).getD d

/-- Python `dict[k] = v`: overwrite in place if the key exists (keeping its
position, as CPython dicts do), otherwise append at the end. -/
def alInsert {β : Type} (l : List (String × β)) (k : String) (v : β) :
    List (String × β) :=
  if (l.find? (fun p => p.1 = k)).isSome then
    l.map (fun p => if p.1 = k then (k, v) else p)
  else l ++ [(k, v)]

/-- Python `k in dict`. -/
def alContains {β : Type} (l : List (String × β)) (k : String) : Bool :=
  (l.find? (fun p => p.1 = k)).isSome

/-- Python `text.lower().split()`: lower-case, split on whitespace runs,
drop empty pieces. -/
def pyWords (s : String) : List String :=
  (s.toLower.split Char.isWhitespace).filter (fun w => w ≠ "")

/-- Python `set(text.lower().split())` as a dedup'd list. -/
def pyWordSet (s : String) : List String := (pyWords s).dedup

/-- Token-set Jaccard similarity, as computed in `dynamic.py` and `memory.py`:
`len(a & b) / len(a | b)`, `0` when the union is empty. -/
def jaccard (q1 q2 : String) : ℚ :=
  let w1 := pyWordSet q1
  let w2 := pyWordSet q2
  let inter := (w1.filter (fun w => w ∈ w2)).length
  let union := (w1 ++ w2.filter (fun w => w ∉ w1)).length
  if union = 0 then 0 else (inter : ℚ) / (union : ℚ)

/-! ## `communication.py` — `AgentCommunicationProtocol` -/

/-- The `AgentHandoff` dataclass (fields not read by the embedded operations are
kept for shape; `timestamp` is an integer clock reading whose `isoformat()`
string the audit entry stores). -/
structure AgentHandoff where
  fromAgent : String
  toAgent : String
  timestamp : Int := 0
  query : String := ""
  keyFindings : List (String × String) := []
  recommendations : List String := []
  warnings : List String := []
  confidence : ℚ := 4/5
  priorityAspects : List String := []
deriving Repr, DecidableEq

/-- One record appended to `conversation_history` by `agent_handoff`. -/
structure ConversationEvent where
  eventType : String
  timestamp : Int
  fromAgent : String
  toAgent : String
  findingsCount : Nat
  confidence : ℚ
deriving Repr, DecidableEq

/-- Mutable state of `AgentCommunicationProtocol`. -/
structure ProtocolState where
  sharedContext : List (String × AgentHandoff) := []
  conversationHistory : List ConversationEvent := []
  globalContext : List (String × String) := []
deriving Repr, DecidableEq

def initProtocolState : ProtocolState := {}

/-- A handoff passes the validity check at the top of `agent_handoff`. -/
def validHandoff (h : AgentHandoff) : Bool :=
  !(h.fromAgent = "") && !(h.toAgent = "")

/-- Method `AgentCommunicationProtocol.agent_handoff`: reject handoffs with a missing
agent name; otherwise store the handoff keyed by recipient (last write wins)
and append one audit entry to `conversation_history`.  The source performs no
trimming of `conversation_history`. -/
def agentHandoff (st : ProtocolState) (h : AgentHandoff) : ProtocolState :=
  if !validHandoff h then st
  else
    { st with
      sharedContext := alInsert st.sharedContext h.toAgent h
      conversationHistory := st.conversationHistory ++
        [⟨"handoff", h.timestamp, h.fromAgent, h.toAgent,
          h.keyFindings.length, h.confidence⟩] }

/-- Run a sequence of handoff operations from the fresh protocol state. -/
def runHandoffs (hs : List AgentHandoff) : ProtocolState :=
  hs.foldl agentHandoff initProtocolState

/-! ## `communication.py` — `AgentCoordinator.calculate_execution_order` -/

/-- State of the depth-first visit: Python's `visited` set and `stack` list. -/
structure DfsState where
  visited : List String
  stack : List String
deriving Repr, DecidableEq

/-- The inner `visit` closure of `calculate_execution_order`.  The Python
recursion is unbounded but marks an agent visited on entry and returns at once
on re-entry, so its depth is at most the number of requested agents; `fuel` is
an upper bound on that depth, and callers pass a sufficient amount.  A call
either returns the state unchanged (agent already visited, or fuel exhausted —
the latter never happens with sufficient fuel) or marks the agent, recursively
visits its requested dependencies, and appends the agent to the stack. -/
def visitFuel (deps : String → List String) (requested : List String) :
    Nat → String → DfsState → DfsState
  | 0, _, st => st
  | fuel + 1, agent, st =>
    if st.visited.contains agent then st
    else
      let st1 : DfsState := ⟨agent :: st.visited, st.stack⟩
      let st2 := ((deps agent).filter (fun d => requested.contains d)).foldl
        (fun s d => visitFuel deps requested fuel d s) st1
      ⟨st2.visited, st2.stack ++ [agent]⟩

/-- The `stack` after the top-level `for agent in requested_agents: visit(agent)`
loop of `calculate_execution_order`. -/
def dfsStack (deps : String → List String) (requested : List String) :
    List String :=
  (requested.foldl
    (fun st a => visitFuel deps requested (requested.length + 1) a st)
    ⟨[], []⟩).stack

/-- The placement condition of the grouping loop:
`all(dep in positioned or dep not in requested_agents for dep in deps)`. -/
def qualifies (deps : String → List String) (requested : List String)
    (pos : List String) (a : String) : Bool :=
  (deps a).all (fun d => pos.contains d || !requested.contains d)

/-- One pass of the `while stack:` grouping loop: scan the (copy of the)
stack in order, placing every agent whose condition holds; `positioned` is
extended while the scan is still running, exactly as the source mutates it
inside the `for` loop.  Returns the level built by this pass and the updated
`positioned`. -/
def passOnce (deps : String → List String) (requested : List String)
    (stack pos : List String) : List String × List String :=
  stack.foldl
    (fun acc a =>
      if qualifies deps requested acc.2 a then (acc.1 ++ [a], acc.2 ++ [a])
      else acc)
    ([], pos)

/-- The `while stack:` grouping loop.  A pass that places nobody leaves the
loop state unchanged (`passOnce_nil_pos` below), so the Python loop then
repeats the identical iteration forever; the embedding returns `none` for
that divergence.  A pass that places somebody shrinks the stack, so `fuel`
equal to the stack length is enough for every terminating run (the `fuel = 0`
branch with a nonempty stack is unreachable then). -/
def calcLoop (deps : String → List String) (requested : List String) :
    Nat → List String → List String → List (List String) →
    Option (List (List String))
  | fuel, stack, pos, levels =>
    if stack.isEmpty then some levels
    else
      match fuel with
      | 0 => none
      | fuel + 1 =>
        let pr := passOnce deps requested stack pos
        if pr.1.isEmpty then none
        else
          calcLoop deps requested fuel
            (stack.filter (fun a => !pr.1.contains a)) pr.2 (levels ++ [pr.1])

/-- Method `AgentCoordinator.calculate_execution_order(requested_agents)`:
depth-first visit into `stack`, then group into levels.  `deps` is the
coordinator's `agent_dependencies` map as a total function (`.get(a, [])`).
`some levels` is the returned value; `none` marks the diverging runs. -/
def calcExecutionOrder (deps : String → List String)
    (requested : List String) : Option (List (List String)) :=
  let stack := dfsStack deps requested
  calcLoop deps requested stack.length stack [] []

/-- A pass that builds an empty level leaves `positioned` unchanged (and the
stack filter is then the identity), so the Python `while` loop diverges:
this justifies the `none` branch of `calcLoop`. -/
theorem passOnce_nil_pos (deps : String → List String)
    (requested : List String) (stack pos : List String)
    (h : (passOnce deps requested stack pos).1 = []) :
    (passOnce deps requested stack pos).2 = pos := by
  induction stack generalizing pos with
  | nil => simp [passOnce]
  | cons a t ih =>
    by_cases hq : qualifies deps requested pos a
    · exfalso
      have hmem : a ∈ (passOnce deps requested (a :: t) pos).1 := by
        simp only [passOnce, List.foldl_cons, hq, if_pos]
        have : ∀ (l : List String) (lv ps : List String), a ∈ lv →
            a ∈ (l.foldl (fun acc b =>
              if qualifies deps requested acc.2 b then (acc.1 ++ [b], acc.2 ++ [b])
              else acc) (lv, ps)).1 := by
          intro l
          induction l with
          | nil => intro lv ps hlv; simp only [List.foldl_nil]; exact hlv
          | cons b tb ihb =>
            intro lv ps hlv
            simp only [List.foldl_cons]
            by_cases hqb : qualifies deps requested ps b
            · simpa [hqb] using ihb _ _ (by simp [hlv])
            · simpa [hqb] using ihb _ _ hlv
        simpa using this t [a] (pos ++ [a]) (by simp)
      rw [h] at hmem
      exact absurd hmem (List.not_mem_nil a)
    · have hstep : passOnce deps requested (a :: t) pos =
          passOnce deps requested t pos := by
        simp [passOnce, hq]
      rw [hstep] at h ⊢
      exact ih pos h

/-! ## `resilience.py` — `ResilientAgentWrapper` -/

/-- Constructor arguments and constants of `ResilientAgentWrapper`.  The
per-attempt timeout adjustment (`agent.timeout = int(original_timeout *
timeout_multiplier ** attempt)`, restored on success) only configures the
external call; the attempt outcome function below already abstracts that
call's behaviour, so the timeout value itself is not part of the state. -/
structure ResilienceConfig where
  retryCount : Nat := 3
  threshold : Nat := 5
  resetTime : Int := 300
deriving Repr, DecidableEq

/-- Mutable circuit-breaker state of one wrapper instance.  Error records
keep their timestamp (integer seconds) and message, as in the source. -/
structure WrapperState where
  errorHistory : List (Int × String) := []
  circuitOpen : Bool := false
  circuitOpenedAt : Option Int := none
deriving Repr, DecidableEq

def initWrapperState : WrapperState := {}

/-- Method `_record_error`: append the record, drop records at least 10 minutes old
(strictly: keep `timestamp > now - 600`), and open the circuit once the
retained history reaches the threshold. -/
def recordError (cfg : ResilienceConfig) (now : Int) (err : String)
    (st : WrapperState) : WrapperState :=
  let hist := (st.errorHistory ++ [(now, err)]).filter (fun e => e.1 > now - 600)
  if cfg.threshold ≤ hist.length then
    { st with errorHistory := hist
              circuitOpen := true
              circuitOpenedAt := some now }
  else { st with errorHistory := hist }

/-- Method `_reset_circuit_breaker`: clear the error history; close the circuit and
forget the opening time only when the circuit was open (so a lingering
`circuit_opened_at` from a timed-out open circuit is kept, as in the source).
-/
def resetCircuitBreaker (st : WrapperState) : WrapperState :=
  let st1 := { st with errorHistory := ([] : List (Int × String)) }
  if st1.circuitOpen then
    { st1 with circuitOpen := false
               circuitOpenedAt := none }
  else st1

/-- Method `_is_circuit_open`.  The source computes
`(datetime.now() - self.circuit_opened_at).seconds`, i.e. the **seconds
component** of the timedelta — for a nonnegative whole-second difference this
is the difference modulo 86400 (one day), not the total elapsed seconds.
Returns the answer together with the possibly updated state. -/
def isCircuitOpen (cfg : ResilienceConfig) (now : Int) (st : WrapperState) :
    Bool × WrapperState :=
  if !st.circuitOpen then (false, st)
  else
    match st.circuitOpenedAt with
    | some t =>
      if (now - t) % 86400 > cfg.resetTime then
        (false, { st with circuitOpen := false })
      else (true, st)
    | none => (true, st)

/-- Behaviour of one `await self.agent.run(...)` call: a returned string, an
`asyncio.TimeoutError`, or any other raised exception. -/
inductive AttemptOutcome where
  | ok (s : String)
  | timeoutErr
  | exc (e : String)
deriving Repr, DecidableEq

/-- The orchestrator-role timeout fallback (`json.dumps` output). -/
def orchestratorTimeoutFallback : String :=
  "\x7b\"complexity\": \"moderate\", \"domain\": \"general\", \"agents_needed\": [\"Domain Specialist\", \"Web Harvester\"], \"strategy\": \"parallel\", \"key_aspects\": [\"main topic\", \"current information\"], \"fallback\": true, \"reason\": \"timeout\"\x7d"

/-- The orchestrator-role error fallback (`json.dumps` output, with the error
text interpolated into the `reason` field). -/
def orchestratorErrorFallback (e : String) : String :=
  "\x7b\"complexity\": \"complex\", \"domain\": \"general\", \"agents_needed\": [\"Domain Specialist\", \"Web Harvester\", \"Fact Validator\"], \"strategy\": \"sequential\", \"key_aspects\": [\"comprehensive analysis needed\"], \"fallback\": true, \"reason\": \"error: " ++ e ++ "\"\x7d"

/-- Method `_get_fallback_response(reason, error)`: pick the response set for the
failure reason (unknown reasons fall back to the `"error"` set, per
`fallbacks.get(reason, fallbacks["error"])`), then pick the entry for the
agent's declared role, defaulting to the set's `"default"` entry. -/
def getFallbackResponse (name role reason : String) (error : Option String)
    (retryCount : Nat) : String :=
  if reason = "timeout" then
    if role = "orchestrator" then orchestratorTimeoutFallback
    else if role = "researcher" then
      "Unable to complete research due to timeout. The query appears to require further investigation."
    else if role = "validator" then
      "Unable to validate claims due to timeout. Recommend manual verification."
    else name ++ " was unable to complete the task due to timeout."
  else if reason = "circuit_breaker" then
    name ++ " is temporarily unavailable due to repeated failures. Using cached response."
  else if reason = "max_retries" then
    name ++ " could not complete after " ++ toString retryCount ++ " attempts."
  else
    if role = "orchestrator" then orchestratorErrorFallback (error.getD "None")
    else name ++ " encountered an error. Please try a simpler query."

/-- The `for attempt in range(self.retry_count)` loop of
`run_with_resilience`, from a given attempt index onwards, with `remaining`
the number of attempts still allowed (`remaining = retry_count - attempt`
throughout; the loop-entry guard `attempt < retry_count` is `remaining ≥ 1`,
and the not-the-final-attempt test `attempt < retry_count - 1` is
`remaining ≥ 2`).  `behaviors k` is what the wrapped agent's `run` does on
attempt `k`; `times k` is the clock reading when attempt `k`'s error is
recorded; `salvage` is `_handle_validation_failure` (its output is opaque to
every property proved here, so it is threaded as a collaborator).  The
`remaining = 0` branch is the post-loop
`return self._get_fallback_response("max_retries")`, reached only when
`retry_count = 0`. -/
def runAttempts (cfg : ResilienceConfig) (name role : String)
    (validate : Option (String → Bool)) (salvage : String → String)
    (behaviors : Nat → AttemptOutcome) (times : Nat → Int) :
    Nat → Nat → WrapperState → String × WrapperState
  | _, 0, st => (getFallbackResponse name role "max_retries" none cfg.retryCount, st)
  | attempt, remaining + 1, st =>
    match behaviors attempt with
    | .ok s =>
      match validate with
      | some v =>
        if v s then (s, resetCircuitBreaker st)
        else if 0 < remaining then
          runAttempts cfg name role validate salvage behaviors times
            (attempt + 1) remaining st
        else (salvage s, st)
      | none => (s, resetCircuitBreaker st)
    | .timeoutErr =>
      let st2 := recordError cfg (times attempt) "timeout" st
      if 0 < remaining then
        runAttempts cfg name role validate salvage behaviors times
          (attempt + 1) remaining st2
      else (getFallbackResponse name role "timeout" none cfg.retryCount, st2)
    | .exc e =>
      let st2 := recordError cfg (times attempt) e st
      if 0 < remaining then
        runAttempts cfg name role validate salvage behaviors times
          (attempt + 1) remaining st2
      else (getFallbackResponse name role "error" (some e) cfg.retryCount, st2)

/-- Method `run_with_resilience`: fast-fail with the circuit-breaker fallback when
the circuit is open at call time (`t0`), otherwise run the attempt loop from
attempt 0.  Every branch of the source returns a string — all exceptions are
caught inside the loop — which the embedding reflects by being total. -/
def runWithResilience (cfg : ResilienceConfig) (name role : String)
    (validate : Option (String → Bool)) (salvage : String → String)
    (behaviors : Nat → AttemptOutcome) (times : Nat → Int)
    (t0 : Int) (st : WrapperState) : String × WrapperState :=
  let p := isCircuitOpen cfg t0 st
  if p.1 then
    (getFallbackResponse name role "circuit_breaker" none cfg.retryCount, p.2)
  else
    runAttempts cfg name role validate salvage behaviors times 0 cfg.retryCount p.2

/-- Stable insertion of `a` into `l`: `a` goes immediately before the first
element `b` with `le a b`, so equal-key elements keep their original order. -/
def stableInsert {α : Type} (le : α → α → Bool) (a : α) : List α → List α
  | [] => [a]
  | b :: t => if le a b then a :: b :: t else b :: stableInsert le a t

/-- Python's stable `sorted(..)` (and `list.sort`): for a total transitive
comparison this is the unique stable ascending ordering, here realised as a
stable insertion sort (structurally recursive, so concrete instances
compute). -/
def pySorted {α : Type} (le : α → α → Bool) : List α → List α
  | [] => []
  | a :: t => stableInsert le a (pySorted le t)

theorem stableInsert_perm {α : Type} (le : α → α → Bool) (a : α)
    (l : List α) : (stableInsert le a l).Perm (a :: l) := by
  induction l with
  | nil => simp [stableInsert]
  | cons b t ih =>
    by_cases h : le a b
    · simp [stableInsert, h]
    · simp only [stableInsert, h, if_false, Bool.false_eq_true]
      exact (ih.cons b).trans (List.Perm.swap a b t)

theorem pySorted_perm {α : Type} (le : α → α → Bool) (l : List α) :
    (pySorted le l).Perm l := by
  induction l with
  | nil => simp [pySorted]
  | cons a t ih =>
    exact (stableInsert_perm le a (pySorted le t)).trans (ih.cons a)

theorem stableInsert_pairwise {α : Type} (le : α → α → Bool)
    (htrans : ∀ x y z, le x y = true → le y z = true → le x z = true)
    (htot : ∀ x y, le x y = true ∨ le y x = true) (a : α) (l : List α)
    (h : l.Pairwise (fun x y => le x y = true)) :
    (stableInsert le a l).Pairwise (fun x y => le x y = true) := by
  induction l with
  | nil => simp [stableInsert]
  | cons b t ih =>
    rcases List.pairwise_cons.mp h with ⟨hb, ht⟩
    by_cases hab : le a b
    · simp only [stableInsert, hab, if_pos]
      refine List.pairwise_cons.mpr ⟨?_, h⟩
      intro y hy
      rcases List.mem_cons.mp hy with rfl | hyt
      · exact hab
      · exact htrans a b y hab (hb _ hyt)
    · simp only [stableInsert, hab, if_neg, Bool.false_eq_true]
      refine List.pairwise_cons.mpr ⟨?_, ih ht⟩
      intro y hy
      have hy' := (stableInsert_perm le a t).mem_iff.mp hy
      rcases List.mem_cons.mp hy' with hya | hyt
      · rw [hya]
        rcases htot a b with h1 | h1
        · exact absurd h1 hab
        · exact h1
      · exact hb _ hyt

theorem pySorted_pairwise {α : Type} (le : α → α → Bool)
    (htrans : ∀ x y z, le x y = true → le y z = true → le x z = true)
    (htot : ∀ x y, le x y = true ∨ le y x = true) (l : List α) :
    (pySorted le l).Pairwise (fun x y => le x y = true) := by
  induction l with
  | nil => simp [pySorted]
  | cons a t ih => exact stableInsert_pairwise le htrans htot a _ ih

/-! ## `dynamic.py` — `PromptCache` -/

/-- One value of the `cache` dict (the stored timestamp string is not read by
any operation and is omitted). -/
structure CacheEntry where
  agentName : String
  query : String
  prompt : String
  successRate : ℚ
  quality : ℚ
deriving Repr, DecidableEq

/-- One value of the `success_rates` dict. -/
structure RateStat where
  count : Nat
  successSum : Nat
  qualitySum : ℚ
deriving Repr, DecidableEq

/-- Mutable state of a `PromptCache` instance. -/
structure CacheState where
  cache : List (String × CacheEntry) := []
  accessCounts : List (String × Nat) := []
  successRates : List (String × RateStat) := []
  maxSize : Nat := 1000
deriving Repr, DecidableEq

def emptyCache (capacity : Nat) : CacheState := { maxSize := capacity }

/-- Method `_generate_key`: the md5 hex digest of `f"{agent_name}:{query.lower().strip()}"`.
The digest is a stable fingerprint of that content, so the embedding keys by
the content itself (faithful up to md5 collisions). -/
def generateKey (agentName query : String) : String :=
  agentName ++ ":" ++ query.toLower.trim

/-- Method `PromptCache.get`: exact-key hit first (bumping the key's access count);
otherwise a linear scan over the cache in insertion order keeps the
highest-scoring same-agent entry with Jaccard similarity at or above the
threshold (later entries win only on a strictly better score).  Returns the
optional prompt and the updated state. -/
def promptCacheGet (st : CacheState) (agentName query : String)
    (threshold : ℚ) : Option String × CacheState :=
  let key := generateKey agentName query
  match alGet st.cache key with
  | some entry =>
    (some entry.prompt,
     { st with accessCounts :=
        alInsert st.accessCounts key (alGetD st.accessCounts key 0 + 1) })
  | none =>
    let best := st.cache.foldl
      (fun (acc : Option (String × CacheEntry) × ℚ) p =>
        if p.2.agentName ≠ agentName then acc
        else
          let sim := jaccard query p.2.query
          if threshold ≤ sim ∧ acc.2 < sim then (some p, sim) else acc)
      (none, 0)
    match best.1 with
    | some p =>
      (some p.2.prompt,
       { st with accessCounts :=
          alInsert st.accessCounts p.1 (alGetD st.accessCounts p.1 0 + 1) })
    | none => (none, st)

/-- Method `_evict_least_accessed`: stable-sort the cache keys by access count
(missing count = 0), remove the first `max(1, int(max_size * 0.1))` of them
from all three dicts.  `int(max_size * 0.1)` is floor division by ten (the
source computes it through a float; the two agree on the sizes considered
here and the spec's own reading is `floor(capacity × 0.1)`). -/
def evictLeastAccessed (st : CacheState) : CacheState :=
  let sortedKeys := pySorted
    (fun k1 k2 => decide (alGetD st.accessCounts k1 0 ≤ alGetD st.accessCounts k2 0))
    (st.cache.map (·.1))
  let removeCount := max 1 (st.maxSize / 10)
  let removed := sortedKeys.take removeCount
  { st with
    cache := st.cache.filter (fun p => !removed.contains p.1)
    accessCounts := st.accessCounts.filter (fun p => !removed.contains p.1)
    successRates := st.successRates.filter (fun p => !removed.contains p.1) }

/-- Method `PromptCache.store`: update the key's running (count, success-sum,
quality-sum); admit (insert or overwrite) the entry only when both the
running success rate and the running average quality reach 0.8; evict when
the cache then exceeds `max_size`. -/
def promptCacheStore (st : CacheState) (agentName query prompt : String)
    (success : Bool) (quality : ℚ) : CacheState :=
  let key := generateKey agentName query
  let stat : RateStat :=
    match alGet st.successRates key with
    | some r => ⟨r.count + 1, r.successSum + (if success then 1 else 0),
                 r.qualitySum + quality⟩
    | none => ⟨1, if success then 1 else 0, quality⟩
  let st1 := { st with successRates := alInsert st.successRates key stat }
  let successRate : ℚ := (stat.successSum : ℚ) / (stat.count : ℚ)
  let avgQuality : ℚ := stat.qualitySum / (stat.count : ℚ)
  if 4/5 ≤ successRate ∧ 4/5 ≤ avgQuality then
    let entry : CacheEntry := ⟨agentName, query, prompt, successRate, avgQuality⟩
    let st2 := { st1 with cache := alInsert st1.cache key entry }
    if st2.maxSize < st2.cache.length then evictLeastAccessed st2 else st2
  else st1

/-- A `PromptCache` method call, for reasoning about call sequences. -/
inductive CacheOp where
  | store (agentName query prompt : String) (success : Bool) (quality : ℚ)
  | lookup (agentName query : String) (threshold : ℚ)
deriving Repr

def cacheStep (st : CacheState) (op : CacheOp) : CacheState :=
  match op with
  | .store n q p s ql => promptCacheStore st n q p s ql
  | .lookup n q th => (promptCacheGet st n q th).2

def runCacheOps (capacity : Nat) (ops : List CacheOp) : CacheState :=
  ops.foldl cacheStep (emptyCache capacity)

/-! ## `memory.py` — `AgentMemorySystem` -/

/-- One row of the `memories` table (columns read by the embedded queries). -/
structure MemRow where
  id : String
  agentName : String
  query : String
  response : String
  success : Bool
  executionTime : ℚ
  tokensUsed : Nat
  timestamp : ℚ
deriving Repr, DecidableEq

/-- One row of the `agent_metrics` table. -/
structure MetricsRow where
  totalQueries : Nat
  successfulQueries : Nat
  totalTime : ℚ
  totalTokens : Nat
deriving Repr, DecidableEq

/-- Database state of an `AgentMemorySystem`. -/
structure MemoryState where
  rows : List MemRow := []
  metrics : List (String × MetricsRow) := []
deriving Repr, DecidableEq

def emptyMemory : MemoryState := {}

/-- Method `store_interaction`: `INSERT OR REPLACE` of the row keyed by `id`
(a conflicting row is deleted and the new row inserted), plus the
unconditional `agent_metrics` upsert that adds this execution's counters. -/
def storeInteraction (st : MemoryState) (e : MemRow) : MemoryState :=
  let m := (alGet st.metrics e.agentName).getD ⟨0, 0, 0, 0⟩
  { rows := (st.rows.filter (fun r => r.id ≠ e.id)) ++ [e]
    metrics := alInsert st.metrics e.agentName
      ⟨m.totalQueries + 1,
       m.successfulQueries + (if e.success then 1 else 0),
       m.totalTime + e.executionTime,
       m.totalTokens + e.tokensUsed⟩ }

def runMemoryStores (es : List MemRow) : MemoryState :=
  es.foldl storeInteraction emptyMemory

/-- SQL `ORDER BY timestamp DESC` (ties in an arbitrary but fixed order). -/
def byTimestampDesc (rows : List MemRow) : List MemRow :=
  pySorted (fun r1 r2 => decide (r2.timestamp ≤ r1.timestamp)) rows

/-- The success rate over a list of rows (`sum(success) / len`). -/
def rowsSuccessRate (rows : List MemRow) : ℚ :=
  ((rows.filter (fun r => r.success)).length : ℚ) / (rows.length : ℚ)

/-- The `success_rate` field of `get_agent_performance_metrics`: read from
the `agent_metrics` row (0 when `total_queries = 0`); the defaults dict used
when no metrics row exists has `success_rate = 1.0`. -/
def overallSuccessRate (st : MemoryState) (a : String) : ℚ :=
  match alGet st.metrics a with
  | some m =>
    if 0 < m.totalQueries then (m.successfulQueries : ℚ) / (m.totalQueries : ℚ)
    else 0
  | none => 1

/-- The rows feeding the trend computation: the agent's 10 most recent
`memories` rows (`ORDER BY timestamp DESC LIMIT 10`). -/
def recentRows (st : MemoryState) (a : String) : List MemRow :=
  (byTimestampDesc (st.rows.filter (fun r => r.agentName = a))).take 10

/-- The `trend` field computed by `get_agent_performance_metrics`:
`"improving"` when the success rate over the 10 most recent rows strictly
exceeds the overall `success_rate`, otherwise `"stable"`; the key is absent
(`none`) when the agent has no rows. -/
def aggregateTrend (st : MemoryState) (a : String) : Option String :=
  let recent := recentRows st a
  if recent.isEmpty then none
  else some (if overallSuccessRate st a < rowsSuccessRate recent then
    "improving" else "stable")

/-- Method `retrieve_similar(query, agent_name, limit, min_similarity)`: successful
rows only, optionally restricted to one agent (`if agent_name:` — Python
truthiness, so the empty string disables the filter), 100 most recent by
timestamp, Jaccard-scored against the query, kept at or above the bound,
stably sorted by descending score, first `limit` returned. -/
def retrieveSimilar (rows : List MemRow) (query : String)
    (agentName : Option String) (limit : Nat) (minSim : ℚ) : List MemRow :=
  let filtered := rows.filter (fun r => r.success &&
    (match agentName with
     | some a => if a = "" then true else r.agentName = a
     | none => true))
  let recent := (byTimestampDesc filtered).take 100
  let scored := recent.filterMap (fun r =>
    let sim := jaccard query r.query
    if minSim ≤ sim then some (sim, r) else none)
  let sorted := pySorted (fun p1 p2 => decide (p2.1 ≤ p1.1)) scored
  (sorted.take limit).map (·.2)

/-- The trend rule exactly as the specification's sentence states it
(claim-side definition, kept apart from the source embedding above): compare
the most recent 5 entries of the agent's chronological history against the
5 (or fewer) preceding them, with a 0.1 margin; fewer than 5 entries in
total give `"insufficient_data"`. -/
def specTrendRule (entries : List MemRow) : String :=
  if entries.length < 5 then "insufficient_data"
  else
    let recent := entries.drop (entries.length - 5)
    let priorAll := entries.take (entries.length - 5)
    let prior := priorAll.drop (priorAll.length - 5)
    if rowsSuccessRate prior + 1/10 < rowsSuccessRate recent then "improving"
    else if rowsSuccessRate recent + 1/10 < rowsSuccessRate prior then
      "degrading"
    else "stable"

/-! ## Supporting lemmas -/

/-- Folding `agent_handoff` appends one audit entry per valid handoff. -/
theorem foldl_agentHandoff_length (hs : List AgentHandoff) (st : ProtocolState) :
    ((hs.foldl agentHandoff st).conversationHistory).length =
      st.conversationHistory.length + (hs.filter validHandoff).length := by
  induction hs generalizing st with
  | nil => simp
  | cons h t ih =>
    simp only [List.foldl_cons, List.filter_cons]
    by_cases hv : validHandoff h
    · rw [ih]
      simp [agentHandoff, hv]
      omega
    · rw [ih]
      simp [agentHandoff, hv]

theorem resetCircuitBreaker_errorHistory (st : WrapperState) :
    (resetCircuitBreaker st).errorHistory = [] := by
  unfold resetCircuitBreaker
  by_cases h : st.circuitOpen <;> simp [h]

/-! ## Claim theorems -/

/-- Claim C8 — counterexample.  The claim asserts the existence of a fixed
bound `N` on the retained conversation-log length over all handoff
sequences.  `agent_handoff` never trims `conversation_history`, so `N + 1`
valid handoffs produce `N + 1` retained entries, refuting every candidate
bound. -/
theorem conversationLog_unbounded :
    ¬ ∃ N : ℕ, ∀ hs : List AgentHandoff,
      ((runHandoffs hs).conversationHistory).length ≤ N := by
  rintro ⟨N, hN⟩
  have h0 : validHandoff { fromAgent := "a", toAgent := "b" } = true := by decide
  have hlen := foldl_agentHandoff_length
    (List.replicate (N + 1) { fromAgent := "a", toAgent := "b" }) initProtocolState
  rw [List.filter_eq_self.mpr (by intro x hx; rw [List.eq_of_mem_replicate hx]; exact h0)]
    at hlen
  have := hN (List.replicate (N + 1) { fromAgent := "a", toAgent := "b" })
  rw [runHandoffs] at this
  rw [hlen] at this
  simp [initProtocolState] at this

/-- Claim C8 — amended:  the conversation log is *not* bounded; it grows by
exactly one audit entry per valid handoff (invalid handoffs — missing
`from`/`to` names — are dropped), with no trimming.  After `n` valid
handoffs the log holds `n` entries. -/
theorem conversationLog_growth (hs : List AgentHandoff) :
    ((runHandoffs hs).conversationHistory).length =
      (hs.filter validHandoff).length := by
  have := foldl_agentHandoff_length hs initProtocolState
  simpa [runHandoffs, initProtocolState] using this

/-- The dependency map registered by `orchestrator_enhanced.py`:
`Fact Validator` depends on `Domain Specialist` and `Web Harvester`. -/
def demoDeps : String → List String := fun a =>
  if a = "Fact Validator" then ["Domain Specialist", "Web Harvester"]
  else if a = "Quality Auditor" then ["Principal Synthesizer"]
  else []

def levelIndex (levels : List (List String)) (a : String) : Option Nat :=
  levels.findIdx? (fun lv => lv.contains a)

def depStrictlyEarlier (levels : List (List String)) (d w : String) : Bool :=
  match levelIndex levels d, levelIndex levels w with
  | some i, some j => i < j
  | _, _ => false

/-- The ordering property the claim asserts of the returned levels: every
dependency of a requested worker that is itself requested sits in a strictly
earlier level. -/
def claimOrderingHolds (deps : String → List String)
    (requested : List String) (levels : List (List String)) : Bool :=
  requested.all (fun w => (deps w).all
    (fun d => !requested.contains d || depStrictlyEarlier levels d w))

/-- Claim C1 — the code at the failing input.  With the repository's own
dependency map and the expert-mode request, `calculate_execution_order`
returns a *single* level containing `Fact Validator` together with both of
its dependencies (the source adds each placed agent to `positioned` while
the same pass is still scanning, and the depth-first stack already lists
dependencies first, so the first pass absorbs everything); the strictly-
earlier-level property the claim asserts is violated. -/
theorem calcExecutionOrder_single_level :
    calcExecutionOrder demoDeps
        ["Domain Specialist", "Web Harvester", "Fact Validator"] =
      some [["Domain Specialist", "Web Harvester", "Fact Validator"]] ∧
    claimOrderingHolds demoDeps
        ["Domain Specialist", "Web Harvester", "Fact Validator"]
        [["Domain Specialist", "Web Harvester", "Fact Validator"]] = false := by
  constructor
  · rfl
  · rfl

/-- The wrapper state after five errors recorded at seconds 0..4 (all within
the 600-second trailing window): the circuit is open, opened at second 4. -/
def openedState : WrapperState :=
  ([0, 1, 2, 3, 4] : List Int).foldl
    (fun s t => recordError {} t "timeout" s) initWrapperState

/-- Claim C3 — the code at the failing input.  Five error records open the
circuit (first two conjuncts: threshold reached at second 4, a call at
second 100 fast-fails with the circuit-breaker fallback instead of running
the unit, which would have returned `"fine"`); a call 346 s (> 300 s) after
opening is attempted, as the claim says (third conjunct); but a call one
full day after opening — elapsed 86400 s, far beyond the 300-second reset
timeout — is *still* fast-failed (final conjuncts), because the source reads
`.seconds` of the timedelta (elapsed modulo 86400) instead of the total
elapsed time. -/
theorem circuitBreaker_day_wrap :
    openedState.circuitOpen = true ∧
    (runWithResilience {} "A" "researcher" none id (fun _ => .ok "fine")
        (fun _ => 100) 100 openedState).1 =
      getFallbackResponse "A" "researcher" "circuit_breaker" none 3 ∧
    (runWithResilience {} "A" "researcher" none id (fun _ => .ok "fine")
        (fun _ => 350) 350 openedState).1 = "fine" ∧
    ((4 + 86400 : Int) - 4) % 86400 = 0 ∧
    (runWithResilience {} "A" "researcher" none id (fun _ => .ok "fine")
        (fun _ => 4 + 86400) (4 + 86400) openedState).1 =
      getFallbackResponse "A" "researcher" "circuit_breaker" none 3 := by
  refine ⟨rfl, rfl, rfl, by decide, rfl⟩

/-- Claim C5 — store-then-lookup round trip on a fresh cache: the single
observation gives running success rate 1 (for `success = true`; 0 otherwise)
and running quality equal to the given quality, so the entry is admitted —
and the identical-query lookup returns the stored artifact — exactly when
the call was successful with quality ≥ 0.8; otherwise the lookup misses. -/
theorem promptCache_store_get_roundtrip (capacity : Nat) (hc : 1 ≤ capacity)
    (n q p : String) (success : Bool) (quality : ℚ) (th : ℚ) :
    (promptCacheGet (promptCacheStore (emptyCache capacity) n q p success quality)
        n q th).1 =
      if success = true ∧ 4/5 ≤ quality then some p else none := by
  cases success with
  | false =>
    have hst : promptCacheStore (emptyCache capacity) n q p false quality =
        { maxSize := capacity, cache := [], accessCounts := [],
          successRates := [(generateKey n q, ⟨1, 0, quality⟩)] } := by
      unfold promptCacheStore emptyCache
      norm_num [alGet, alInsert]
    rw [hst]
    simp [promptCacheGet, alGet]
  | true =>
    by_cases hq : (4:ℚ)/5 ≤ quality
    · have hst : promptCacheStore (emptyCache capacity) n q p true quality =
          { maxSize := capacity,
            cache := [(generateKey n q, ⟨n, q, p, 1, quality⟩)],
            accessCounts := [],
            successRates := [(generateKey n q, ⟨1, 1, quality⟩)] } := by
        unfold promptCacheStore emptyCache
        norm_num [alGet, alInsert, hq]
        omega
      rw [hst]
      simp [promptCacheGet, alGet, hq]
    · have hst : promptCacheStore (emptyCache capacity) n q p true quality =
          { maxSize := capacity, cache := [], accessCounts := [],
            successRates := [(generateKey n q, ⟨1, 1, quality⟩)] } := by
        unfold promptCacheStore emptyCache
        norm_num [alGet, alInsert, hq]
      rw [hst]
      simp [promptCacheGet, alGet, hq]

/-- Witness for `promptCache_store_get_roundtrip` at a concrete input. -/
theorem promptCache_store_get_roundtrip_witness :
    1 ≤ 1000 ∧
    (promptCacheGet (promptCacheStore (emptyCache 1000) "w" "Query One" "P" true 1)
        "w" "Query One" (9/10)).1 =
      if true = true ∧ (4:ℚ)/5 ≤ 1 then some "P" else none :=
  ⟨by decide,
   promptCache_store_get_roundtrip 1000 (by decide) "w" "Query One" "P" true 1 (9/10)⟩

/-- A memory row for the trend computations (agent `"a"`, fixed query). -/
def trendRow (i : String) (t : ℚ) (s : Bool) : MemRow :=
  ⟨i, "a", "q", "resp", s, 1, 10, t⟩

/-- Ten stored interactions for one agent: five successes then five
failures. -/
def trendRows : List MemRow :=
  [trendRow "r1" 1 true, trendRow "r2" 2 true, trendRow "r3" 3 true,
   trendRow "r4" 4 true, trendRow "r5" 5 true, trendRow "r6" 6 false,
   trendRow "r7" 7 false, trendRow "r8" 8 false, trendRow "r9" 9 false,
   trendRow "r10" 10 false]

/-- Claim C7 — counterexample.  For a worker whose last ten interactions are
five successes followed by five failures, the claimed classification
(recent 5 vs preceding 5, margin 0.1) yields `"degrading"`, but
`get_agent_performance_metrics` reports `"stable"`: the source compares the
success rate of the last *ten* rows (0.5) against the overall rate (0.5)
and knows only `"improving"`/`"stable"`. -/
theorem aggregateTrend_not_spec_rule :
    aggregateTrend (runMemoryStores trendRows) "a" = some "stable" ∧
    specTrendRule trendRows = "degrading" := by
  constructor
  · norm_num [aggregateTrend, runMemoryStores, trendRows, trendRow, storeInteraction,
      alInsert, alGet, alGetD, recentRows, byTimestampDesc, pySorted, stableInsert,
      overallSuccessRate, rowsSuccessRate, emptyMemory, List.filter_cons,
      List.filter_nil, List.find?_cons, List.find?_nil]
  · norm_num [specTrendRule, trendRows, trendRow, rowsSuccessRate]

theorem alGet_alInsert_self {β : Type} (l : List (String × β)) (k : String)
    (v : β) : alGet (alInsert l k v) k = some v := by
  induction l with
  | nil => simp [alGet, alInsert]
  | cons p t ih =>
    by_cases hk : p.1 = k
    · simp [alGet, alInsert, List.find?_cons, hk]
    · have hstep : alInsert (p :: t) k v = p :: alInsert t k v := by
        unfold alInsert
        rw [List.find?_cons_of_neg _ (by simp [hk])]
        by_cases hs : (t.find? (fun q => q.1 = k)).isSome
        · simp [hs, hk]
        · simp [hs]
      rw [hstep]
      unfold alGet
      rw [List.find?_cons_of_neg _ (by simp [hk])]
      exact ih

theorem runMemoryStores_rows_aux (es : List MemRow) (st : MemoryState)
    (h : ∀ e ∈ es, ∀ r ∈ st.rows, r.id ≠ e.id)
    (hd : (es.map (·.id)).Nodup) :
    (es.foldl storeInteraction st).rows = st.rows ++ es := by
  induction es generalizing st with
  | nil => simp
  | cons e t ih =>
    rw [List.map_cons, List.nodup_cons] at hd
    have hne : ∀ x ∈ t, x.id ≠ e.id := by
      intro x hx hEq
      exact hd.1 (hEq ▸ List.mem_map_of_mem (·.id) hx)
    have hfresh : st.rows.filter (fun r => r.id ≠ e.id) = st.rows :=
      List.filter_eq_self.mpr (fun r hr => by
        simp only [decide_eq_true_eq]
        exact h e (List.mem_cons_self e t) r hr)
    have hrows : (storeInteraction st e).rows = st.rows ++ [e] := by
      show st.rows.filter (fun r => r.id ≠ e.id) ++ [e] = st.rows ++ [e]
      rw [hfresh]
    rw [List.foldl_cons, ih _ ?_ hd.2]
    · rw [hrows]
      simp
    · intro x hx r hr
      rw [hrows] at hr
      rcases List.mem_append.mp hr with hr1 | hr2
      · exact h x (List.mem_cons_of_mem e hx) r hr1
      · rcases List.mem_singleton.mp hr2 with rfl
        exact fun hEq => hne x hx hEq.symm

theorem runMemoryStores_rows (es : List MemRow)
    (hd : (es.map (·.id)).Nodup) : (runMemoryStores es).rows = es := by
  have := runMemoryStores_rows_aux es emptyMemory (by simp [emptyMemory]) hd
  simpa [runMemoryStores, emptyMemory] using this

theorem alGet_alInsert_ne {β : Type} (l : List (String × β)) (k a : String)
    (v : β) (h : k ≠ a) : alGet (alInsert l k v) a = alGet l a := by
  induction l with
  | nil => simp [alGet, alInsert, h]
  | cons p t ih =>
    by_cases hk : p.1 = k
    · unfold alInsert
      rw [List.find?_cons_of_pos _ (by simp [hk])]
      simp only [Option.isSome_some, if_pos]
      unfold alGet
      rw [List.map_cons]
      rw [List.find?_cons_of_neg _ (by simp [hk, h]), List.find?_cons_of_neg _ (by simp [hk, h])]
      clear ih
      have hmap : (t.map (fun p => if p.1 = k then (k, v) else p)).find?
            (fun p => p.1 = a) = t.find? (fun p => p.1 = a) := by
        induction t with
        | nil => simp
        | cons q s ihq =>
          by_cases hq : q.1 = k
          · rw [List.map_cons]
            rw [List.find?_cons_of_neg _ (by simp [hq, h]),
              List.find?_cons_of_neg _ (by simp [hq, h])]
            exact ihq
          · by_cases hqa : q.1 = a
            · rw [List.map_cons]
              rw [List.find?_cons_of_pos _ (by simp [hq, hqa, Ne.symm h]),
                List.find?_cons_of_pos _ (by simp [hqa])]
              simp [hq]
            · rw [List.map_cons]
              rw [List.find?_cons_of_neg _ (by simp [hq, hqa]),
                List.find?_cons_of_neg _ (by simp [hqa])]
              exact ihq
      rw [hmap]
    · have hstep : alInsert (p :: t) k v = p :: alInsert t k v := by
        unfold alInsert
        rw [List.find?_cons_of_neg _ (by simp [hk])]
        by_cases hs : (t.find? (fun q => q.1 = k)).isSome
        · simp [hs, hk]
        · simp [hs]
      rw [hstep]
      by_cases hpa : p.1 = a
      · unfold alGet
        rw [List.find?_cons_of_pos _ (by simp [hpa]),
          List.find?_cons_of_pos _ (by simp [hpa])]
      · unfold alGet
        rw [List.find?_cons_of_neg _ (by simp [hpa]),
          List.find?_cons_of_neg _ (by simp [hpa])]
        exact ih

/-- Column `total_queries` for agent `a` as read back from the metrics table. -/
def mTotal (st : MemoryState) (a : String) : Nat :=
  ((alGet st.metrics a).map (·.totalQueries)).getD 0

/-- Column `successful_queries` for agent `a` as read back from the metrics table. -/
def mSucc (st : MemoryState) (a : String) : Nat :=
  ((alGet st.metrics a).map (·.successfulQueries)).getD 0

theorem metrics_counts_store (st : MemoryState) (e : MemRow) (a : String) :
    mTotal (storeInteraction st e) a =
      mTotal st a + (if e.agentName = a then 1 else 0) ∧
    mSucc (storeInteraction st e) a =
      mSucc st a + (if e.agentName = a ∧ e.success then 1 else 0) := by
  by_cases h : e.agentName = a
  · subst h
    have h1 : alGet (storeInteraction st e).metrics e.agentName =
        some ⟨((alGet st.metrics e.agentName).getD ⟨0, 0, 0, 0⟩).totalQueries + 1,
          ((alGet st.metrics e.agentName).getD ⟨0, 0, 0, 0⟩).successfulQueries +
            (if e.success then 1 else 0),
          ((alGet st.metrics e.agentName).getD ⟨0, 0, 0, 0⟩).totalTime + e.executionTime,
          ((alGet st.metrics e.agentName).getD ⟨0, 0, 0, 0⟩).totalTokens + e.tokensUsed⟩ :=
      alGet_alInsert_self _ _ _
    constructor
    · rw [mTotal, h1]
      cases halg : alGet st.metrics e.agentName <;> simp [mTotal, halg]
    · rw [mSucc, h1]
      cases halg : alGet st.metrics e.agentName <;>
        cases hsucc : e.success <;> simp [mSucc, halg, hsucc]
  · have h1 : alGet (storeInteraction st e).metrics a = alGet st.metrics a :=
      alGet_alInsert_ne _ _ _ _ h
    simp [mTotal, mSucc, h1, h]

theorem metrics_counts_fold (es : List MemRow) (st : MemoryState) (a : String) :
    mTotal (es.foldl storeInteraction st) a =
      mTotal st a + (es.filter (fun e => e.agentName = a)).length ∧
    mSucc (es.foldl storeInteraction st) a =
      mSucc st a +
        (es.filter (fun e => decide (e.agentName = a) && e.success)).length := by
  induction es generalizing st with
  | nil => simp
  | cons e t ih =>
    rcases metrics_counts_store st e a with ⟨h1, h2⟩
    rcases ih (storeInteraction st e) with ⟨ih1, ih2⟩
    constructor
    · rw [List.foldl_cons, ih1, h1]
      by_cases h : e.agentName = a
      · simp [List.filter_cons, h]
        omega
      · simp [List.filter_cons, h]
    · rw [List.foldl_cons, ih2, h2]
      by_cases h : e.agentName = a
      · cases hs : e.success
        · simp [List.filter_cons, h, hs]
        · simp [List.filter_cons, h, hs]
          omega
      · simp [List.filter_cons, h]

theorem overallSuccessRate_runMemoryStores (es : List MemRow) (a : String)
    (hmine : ∀ e ∈ es, e.agentName = a) (hne : es ≠ []) :
    overallSuccessRate (runMemoryStores es) a = rowsSuccessRate es := by
  rcases metrics_counts_fold es emptyMemory a with ⟨h1, h2⟩
  have hfilterA : es.filter (fun e => e.agentName = a) = es :=
    List.filter_eq_self.mpr (fun e he => by simp [hmine e he])
  have hfilterS : es.filter (fun e => decide (e.agentName = a) && e.success) =
      es.filter (fun e => e.success) := by
    apply List.filter_congr
    intro e he
    simp [hmine e he]
  rw [hfilterA] at h1
  rw [hfilterS] at h2
  have hm0 : mTotal emptyMemory a = 0 := by simp [mTotal, emptyMemory, alGet]
  have hs0 : mSucc emptyMemory a = 0 := by simp [mSucc, emptyMemory, alGet]
  rw [runMemoryStores] at *
  rw [hm0] at h1
  rw [hs0] at h2
  obtain ⟨m, hm⟩ : ∃ m, alGet (es.foldl storeInteraction emptyMemory).metrics a = some m := by
    cases halg : alGet (es.foldl storeInteraction emptyMemory).metrics a with
    | none =>
      exfalso
      rw [mTotal, halg] at h1
      simp at h1
      exact hne (List.length_eq_zero.mp h1.symm)
    | some m => exact ⟨m, rfl⟩
  rw [mTotal, hm] at h1
  rw [mSucc, hm] at h2
  simp at h1 h2
  have hpos : 0 < m.totalQueries := by
    rw [h1]
    simp [List.length_pos, hne]
  simp only [overallSuccessRate, hm]
  rw [if_pos hpos, rowsSuccessRate, h1, h2]

theorem perm_sorted_strict_unique (l₁ l₂ : List MemRow) (hp : l₁.Perm l₂)
    (h₁ : l₁.Pairwise (fun r1 r2 => r2.timestamp ≤ r1.timestamp))
    (h₂ : l₂.Pairwise (fun r1 r2 => r2.timestamp < r1.timestamp)) :
    l₁ = l₂ := by
  induction l₁ generalizing l₂ with
  | nil => exact (List.Perm.eq_nil hp.symm).symm
  | cons x t₁ ih =>
    cases l₂ with
    | nil => exact absurd hp.symm (by simp)
    | cons y t₂ =>
      rcases List.pairwise_cons.mp h₁ with ⟨hx, ht₁⟩
      rcases List.pairwise_cons.mp h₂ with ⟨hy, ht₂⟩
      have hxy : x = y := by
        by_contra hne
        have hx2 : x ∈ y :: t₂ := hp.mem_iff.mp (List.mem_cons_self x t₁)
        have hy1 : y ∈ x :: t₁ := hp.symm.mem_iff.mp (List.mem_cons_self y t₂)
        have hxt : x ∈ t₂ := by
          rcases List.mem_cons.mp hx2 with h | h
          · exact absurd h hne
          · exact h
        have hyt : y ∈ t₁ := by
          rcases List.mem_cons.mp hy1 with h | h
          · exact absurd h.symm hne
          · exact h
        have c1 : x.timestamp < y.timestamp := hy _ hxt
        have c2 : y.timestamp ≤ x.timestamp := hx _ hyt
        exact absurd (lt_of_le_of_lt c2 c1) (lt_irrefl _)
      subst hxy
      rw [ih t₂ hp.cons_inv ht₁ ht₂]

theorem byTimestampDesc_of_increasing (es : List MemRow)
    (hts : (es.map (·.timestamp)).Pairwise (· < ·)) :
    byTimestampDesc es = es.reverse := by
  apply perm_sorted_strict_unique
  · exact (pySorted_perm _ es).trans (List.reverse_perm es).symm
  · have hsorted := pySorted_pairwise
      (fun r1 r2 : MemRow => decide (r2.timestamp ≤ r1.timestamp))
      (fun x y z hxy hyz => by
        simp only [decide_eq_true_eq] at *
        exact le_trans hyz hxy)
      (fun x y => by
        simp only [decide_eq_true_eq]
        exact le_total y.timestamp x.timestamp)
      es
    exact hsorted.imp (fun h => by simpa using h)
  · rw [List.pairwise_reverse]
    exact (List.pairwise_map.mp hts).imp (fun h => h)

theorem rowsSuccessRate_reverse (l : List MemRow) :
    rowsSuccessRate l.reverse = rowsSuccessRate l := by
  simp [rowsSuccessRate, List.filter_reverse]

/-- Claim C7 — amended.  For a worker whose stored history has distinct ids
and increasing timestamps, the trend reported by
`get_agent_performance_metrics` is `"improving"` when the success rate of the
10 most recent entries strictly exceeds the worker's overall success rate and
`"stable"` otherwise; no trend is reported for an empty history.  (The
claimed recent-5-vs-prior-5 classification with `"degrading"` and
`"insufficient_data"` lives in `BaseAgent._calculate_trend` in `base.py`,
not in the memory system's aggregate-metrics operation.) -/
theorem aggregateTrend_last10_vs_overall (es : List MemRow) (a : String)
    (hid : (es.map (·.id)).Nodup)
    (hagent : ∀ r ∈ es, r.agentName = a)
    (hts : (es.map (·.timestamp)).Pairwise (· < ·)) :
    aggregateTrend (runMemoryStores es) a =
      if es.isEmpty then none
      else if rowsSuccessRate es < rowsSuccessRate (es.drop (es.length - 10))
        then some "improving" else some "stable" := by
  have hrows : (runMemoryStores es).rows = es := runMemoryStores_rows es hid
  have hfilter : es.filter (fun r => r.agentName = a) = es :=
    List.filter_eq_self.mpr (fun r hr => by simp [hagent r hr])
  by_cases hne : es = []
  · subst hne
    simp [aggregateTrend, recentRows, runMemoryStores, emptyMemory,
      byTimestampDesc, pySorted]
  · have hlen : 1 ≤ es.length := by
      cases es with
      | nil => exact absurd rfl hne
      | cons x t => simp
    have hrecent : recentRows (runMemoryStores es) a =
        (es.drop (es.length - 10)).reverse := by
      rw [recentRows, hrows, hfilter, byTimestampDesc_of_increasing es hts,
        List.take_reverse]
    have hdropne : es.drop (es.length - 10) ≠ [] := by
      intro hcontra
      rw [List.drop_eq_nil_iff] at hcontra
      omega
    have hrecne : ((es.drop (es.length - 10)).reverse).isEmpty = false := by
      simp [List.isEmpty_iff, hdropne]
    have hesne : es.isEmpty = false := by simp [List.isEmpty_iff, hne]
    simp only [aggregateTrend, hrecent, hrecne, hesne, Bool.false_eq_true,
      if_false]
    rw [overallSuccessRate_runMemoryStores es a hagent hne,
      rowsSuccessRate_reverse]
    by_cases hcmp : rowsSuccessRate es <
        rowsSuccessRate (es.drop (es.length - 10))
    · rw [if_pos hcmp, if_pos hcmp]
    · rw [if_neg hcmp, if_neg hcmp]

/-- Witness for `aggregateTrend_last10_vs_overall` at a concrete history. -/
theorem aggregateTrend_last10_vs_overall_witness :
    aggregateTrend (runMemoryStores trendRows) "a" =
      if trendRows.isEmpty then none
      else if rowsSuccessRate trendRows <
          rowsSuccessRate (trendRows.drop (trendRows.length - 10))
        then some "improving" else some "stable" :=
  aggregateTrend_last10_vs_overall trendRows "a" (by decide) (by decide)
    (by norm_num [trendRows, trendRow, List.pairwise_cons])

/-- An attempt behaviour that the retry loop counts as a failure
(timeout or raised exception). -/
def isFailureB : AttemptOutcome → Bool
  | .ok _ => false
  | .timeoutErr => true
  | .exc _ => true

/-- The fallback returned when the loop's final attempt fails with the
given behaviour (keyed by the failure reason; the `ok` case is never used
under the failure hypotheses below). -/
def exhaustedFallback (name role : String) (r : Nat) : AttemptOutcome → String
  | .timeoutErr => getFallbackResponse name role "timeout" none r
  | .exc e => getFallbackResponse name role "error" (some e) r
  | .ok s => s

theorem runAttempts_all_fail (cfg : ResilienceConfig) (name role : String)
    (validate : Option (String → Bool)) (salvage : String → String)
    (behaviors : Nat → AttemptOutcome) (times : Nat → Int) :
    ∀ remaining attempt st, 0 < remaining →
      (∀ k, attempt ≤ k → k < attempt + remaining → isFailureB (behaviors k) = true) →
      (runAttempts cfg name role validate salvage behaviors times attempt remaining st).1 =
        exhaustedFallback name role cfg.retryCount
          (behaviors (attempt + remaining - 1)) := by
  intro remaining
  induction remaining with
  | zero => intro attempt st h; omega
  | succ m ih =>
    intro attempt st _ hfail
    have hb := hfail attempt (le_refl _) (by omega)
    cases hba : behaviors attempt with
    | ok s => rw [hba] at hb; simp [isFailureB] at hb
    | timeoutErr =>
      simp only [runAttempts, hba]
      by_cases hm : 0 < m
      · rw [if_pos hm,
          ih (attempt + 1) _ hm (fun k h1 h2 => hfail k (by omega) (by omega))]
        have hidx : attempt + 1 + m - 1 = attempt + (m + 1) - 1 := by omega
        rw [hidx]
      · have hm0 : m = 0 := by omega
        subst hm0
        rw [if_neg hm]
        have hidx : attempt + 1 - 1 = attempt := by omega
        rw [hidx, hba]
        rfl
    | exc e =>
      simp only [runAttempts, hba]
      by_cases hm : 0 < m
      · rw [if_pos hm,
          ih (attempt + 1) _ hm (fun k h1 h2 => hfail k (by omega) (by omega))]
        have hidx : attempt + 1 + m - 1 = attempt + (m + 1) - 1 := by omega
        rw [hidx]
      · have hm0 : m = 0 := by omega
        subst hm0
        rw [if_neg hm]
        have hidx : attempt + 1 - 1 = attempt := by omega
        rw [hidx, hba]
        rfl

/-- Claim C2 — with the circuit closed at call time and every one of the
`retry_count ≥ 1` attempts failing (timeout or raised exception — the two
classes the source catches), `run_with_resilience` returns the canned
fallback keyed by the last attempt's failure reason and the agent's declared
role.  The embedding is a total function over all attempt behaviours,
reflecting that the source catches every exception inside the loop and
returns a string on every path. -/
theorem runWithResilience_exhausted (cfg : ResilienceConfig)
    (name role : String) (validate : Option (String → Bool))
    (salvage : String → String) (behaviors : Nat → AttemptOutcome)
    (times : Nat → Int) (t0 : Int) (st : WrapperState)
    (hR : 0 < cfg.retryCount)
    (hclosed : (isCircuitOpen cfg t0 st).1 = false)
    (hfail : ∀ k, k < cfg.retryCount → isFailureB (behaviors k) = true) :
    (runWithResilience cfg name role validate salvage behaviors times t0 st).1 =
      exhaustedFallback name role cfg.retryCount
        (behaviors (cfg.retryCount - 1)) := by
  simp only [runWithResilience, hclosed, Bool.false_eq_true, if_false]
  have := runAttempts_all_fail cfg name role validate salvage behaviors times
    cfg.retryCount 0 (isCircuitOpen cfg t0 st).2 hR
    (fun k h1 h2 => hfail k (by omega))
  simpa using this

/-- Witness for `runWithResilience_exhausted`: three timeouts on a
researcher-role agent produce the researcher timeout fallback. -/
theorem runWithResilience_exhausted_witness :
    (runWithResilience {} "Web Harvester" "researcher" none id
        (fun _ => .timeoutErr) (fun _ => 0) 0 initWrapperState).1 =
      exhaustedFallback "Web Harvester" "researcher" 3 AttemptOutcome.timeoutErr :=
  runWithResilience_exhausted {} "Web Harvester" "researcher" none id
    (fun _ => .timeoutErr) (fun _ => 0) 0 initWrapperState (by decide) rfl
    (fun k _ => rfl)

theorem runAttempts_fail_then_ok (cfg : ResilienceConfig) (name role : String)
    (validate : Option (String → Bool)) (salvage : String → String)
    (behaviors : Nat → AttemptOutcome) (times : Nat → Int) (s : String)
    (hval : ∀ v, validate = some v → v s = true) :
    ∀ j remaining attempt st, j < remaining →
      (∀ k, attempt ≤ k → k < attempt + j → isFailureB (behaviors k) = true) →
      behaviors (attempt + j) = .ok s →
      ∃ st', runAttempts cfg name role validate salvage behaviors times
          attempt remaining st = (s, resetCircuitBreaker st') := by
  intro j
  induction j with
  | zero =>
    intro remaining attempt st hj hfail hok
    cases remaining with
    | zero => omega
    | succ r =>
      rw [Nat.add_zero] at hok
      simp only [runAttempts, hok]
      cases hv : validate with
      | none => exact ⟨st, rfl⟩
      | some v =>
        refine ⟨st, ?_⟩
        simp [hval v hv]
  | succ m ih =>
    intro remaining attempt st hj hfail hok
    cases remaining with
    | zero => omega
    | succ r =>
      have hb := hfail attempt (le_refl _) (by omega)
      have hr : 0 < r := by omega
      cases hba : behaviors attempt with
      | ok t => rw [hba] at hb; simp [isFailureB] at hb
      | timeoutErr =>
        simp only [runAttempts, hba, if_pos hr]
        exact ih r (attempt + 1) _ (by omega)
          (fun k h1 h2 => hfail k (by omega) (by omega))
          (by rw [← hok]; congr 1; omega)
      | exc e =>
        simp only [runAttempts, hba, if_pos hr]
        exact ih r (attempt + 1) _ (by omega)
          (fun k h1 h2 => hfail k (by omega) (by omega))
          (by rw [← hok]; congr 1; omega)

/-- Claim C4 — with the circuit closed at call time, exactly `k < retry_count`
failing attempts followed by a successful attempt whose output any supplied
validation predicate accepts, `run_with_resilience` returns the success
value, and the error history is left empty (the success path calls
`_reset_circuit_breaker`, which clears it). -/
theorem runWithResilience_recovery (cfg : ResilienceConfig)
    (name role : String) (validate : Option (String → Bool))
    (salvage : String → String) (behaviors : Nat → AttemptOutcome)
    (times : Nat → Int) (t0 : Int) (st : WrapperState) (k : Nat) (s : String)
    (hclosed : (isCircuitOpen cfg t0 st).1 = false)
    (hk : k < cfg.retryCount)
    (hfail : ∀ i, i < k → isFailureB (behaviors i) = true)
    (hsucc : behaviors k = .ok s)
    (hval : ∀ v, validate = some v → v s = true) :
    (runWithResilience cfg name role validate salvage behaviors times t0 st).1 = s ∧
    (runWithResilience cfg name role validate salvage behaviors times t0
        st).2.errorHistory = [] := by
  obtain ⟨st', hst'⟩ := runAttempts_fail_then_ok cfg name role validate salvage
    behaviors times s hval k cfg.retryCount 0 (isCircuitOpen cfg t0 st).2 hk
    (fun i h1 h2 => hfail i (by omega)) (by simpa using hsucc)
  have hrun : runWithResilience cfg name role validate salvage behaviors times
      t0 st = (s, resetCircuitBreaker st') := by
    simp only [runWithResilience, hclosed, Bool.false_eq_true, if_false]
    exact hst'
  rw [hrun]
  exact ⟨rfl, resetCircuitBreaker_errorHistory st'⟩

/-- Witness for `runWithResilience_recovery`: one timeout, then success. -/
theorem runWithResilience_recovery_witness :
    (runWithResilience {} "A" "validator" none id
        (fun i => if i = 0 then .timeoutErr else .ok "v") (fun _ => 0) 0
        initWrapperState).1 = "v" ∧
    (runWithResilience {} "A" "validator" none id
        (fun i => if i = 0 then .timeoutErr else .ok "v") (fun _ => 0) 0
        initWrapperState).2.errorHistory = [] :=
  runWithResilience_recovery {} "A" "validator" none id
    (fun i => if i = 0 then .timeoutErr else .ok "v") (fun _ => 0) 0
    initWrapperState 1 "v" rfl (by decide)
    (fun i hi => by
      have : i = 0 := by omega
      rw [this]
      rfl)
    rfl (fun v hv => by cases hv)

/-- Claim C10 — every entry returned by `retrieve_similar` has its success
flag set (the SQL filter `WHERE success = 1`), and when a worker name is
supplied (a non-empty string — the source's `if agent_name:` truthiness test
skips the filter for the empty string) every returned entry belongs to that
worker.  Holds for every corpus, query, limit and similarity bound. -/
theorem retrieveSimilar_sound (rows : List MemRow) (query : String)
    (ag : Option String) (limit : Nat) (minSim : ℚ) (r : MemRow)
    (hr : r ∈ retrieveSimilar rows query ag limit minSim) :
    r.success = true ∧ ∀ a, ag = some a → a ≠ "" → r.agentName = a := by
  unfold retrieveSimilar at hr
  obtain ⟨p, hp, hpr⟩ := List.mem_map.mp hr
  replace hp := List.take_subset _ _ hp
  replace hp := (pySorted_perm _ _).mem_iff.mp hp
  obtain ⟨x, hx, hxp⟩ := List.mem_filterMap.mp hp
  replace hx := List.take_subset _ _ hx
  replace hx := (pySorted_perm _ _).mem_iff.mp hx
  dsimp only at hxp
  have hxr : x = r := by
    by_cases hsim : minSim ≤ jaccard query x.query
    · rw [if_pos hsim] at hxp
      have := Option.some_injective _ hxp
      rw [← hpr, ← this]
    · rw [if_neg hsim] at hxp
      exact absurd hxp (by simp)
  have hpred := (List.mem_filter.mp hx).2
  rw [hxr] at hpred
  rw [Bool.and_eq_true] at hpred
  rcases hpred with ⟨hsucc, hmatch⟩
  refine ⟨hsucc, ?_⟩
  intro a hag hane
  rw [hag] at hmatch
  simp only [if_neg hane] at hmatch
  exact of_decide_eq_true hmatch

/-- Jaccard similarity is never negative (both branches are quotients of
nonnegative counts). -/
theorem jaccard_nonneg (q1 q2 : String) : 0 ≤ jaccard q1 q2 := by
  unfold jaccard
  by_cases h : (pyWordSet q1 ++ (pyWordSet q2).filter (fun w => w ∉ pyWordSet q1)).length = 0
  · rw [if_pos h]
  · rw [if_neg h]
    positivity

/-- A stored successful interaction of worker `"x"`. -/
def simRowX : MemRow := ⟨"m1", "x", "alpha beta", "resp", true, 1, 10, 1⟩

/-- Witness for `retrieveSimilar_sound` on a one-row corpus. -/
theorem retrieveSimilar_sound_witness :
    simRowX.success = true ∧ "x" ≠ "" ∧ simRowX.agentName = "x" := by
  have hmem : simRowX ∈ retrieveSimilar [simRowX] "alpha beta" (some "x") 5 0 := by
    simp [retrieveSimilar, List.filter_cons, List.filterMap_cons,
      byTimestampDesc, pySorted, stableInsert, jaccard_nonneg, simRowX]
  have h := retrieveSimilar_sound [simRowX] "alpha beta" (some "x") 5 0 simRowX hmem
  exact ⟨h.1, by decide, h.2 "x" rfl (by decide)⟩

/-! ### Depth-first visit: membership lemmas for C9 -/

theorem visitFuel_mono (deps : String → List String) (requested : List String) :
    ∀ fuel,
      (∀ a st, (∀ x, x ∈ st.visited → x ∈ (visitFuel deps requested fuel a st).visited) ∧
        (∀ x, x ∈ st.stack → x ∈ (visitFuel deps requested fuel a st).stack)) ∧
      (∀ (l : List String) (st : DfsState),
        (∀ x, x ∈ st.visited →
          x ∈ (l.foldl (fun s d => visitFuel deps requested fuel d s) st).visited) ∧
        (∀ x, x ∈ st.stack →
          x ∈ (l.foldl (fun s d => visitFuel deps requested fuel d s) st).stack)) := by
  intro fuel
  induction fuel with
  | zero =>
    constructor
    · intro a st
      constructor <;> intro x hx <;> simpa [visitFuel] using hx
    · intro l
      induction l with
      | nil => intro st; constructor <;> intro x hx <;> simpa using hx
      | cons d t ih =>
        intro st
        constructor <;> intro x hx
        · exact (ih _).1 x (by simpa [visitFuel] using hx)
        · exact (ih _).2 x (by simpa [visitFuel] using hx)
  | succ f ih =>
    have hvisit : ∀ a st,
        (∀ x, x ∈ st.visited → x ∈ (visitFuel deps requested (f + 1) a st).visited) ∧
        (∀ x, x ∈ st.stack → x ∈ (visitFuel deps requested (f + 1) a st).stack) := by
      intro a st
      by_cases hv : a ∈ st.visited
      · constructor <;> intro x hx <;> simpa [visitFuel, hv] using hx
      · constructor <;> intro x hx
        · have h2 := (ih.2 ((deps a).filter (fun d => requested.contains d))
            ⟨a :: st.visited, st.stack⟩).1 x (by simp [hx])
          simpa [visitFuel, hv] using h2
        · have h2 := (ih.2 ((deps a).filter (fun d => requested.contains d))
            ⟨a :: st.visited, st.stack⟩).2 x (by simp [hx])
          simp [visitFuel, hv]
          exact Or.inl (by simpa using h2)
    refine ⟨hvisit, ?_⟩
    intro l
    induction l with
    | nil => intro st; constructor <;> intro x hx <;> simpa using hx
    | cons d t ihl =>
      intro st
      constructor <;> intro x hx
      · exact (ihl _).1 x ((hvisit d st).1 x hx)
      · exact (ihl _).2 x ((hvisit d st).2 x hx)

theorem visitFuel_marks (deps : String → List String) (requested : List String)
    (f : Nat) (a : String) (st : DfsState) :
    a ∈ (visitFuel deps requested (f + 1) a st).visited := by
  by_cases hv : a ∈ st.visited
  · simp [visitFuel, hv]
  · have h2 := ((visitFuel_mono deps requested f).2
      ((deps a).filter (fun d => requested.contains d))
      ⟨a :: st.visited, st.stack⟩).1 a (by simp)
    simpa [visitFuel, hv] using h2

theorem visitFuel_visited_in_stack (deps : String → List String)
    (requested : List String) :
    ∀ fuel,
      (∀ a st (G : Set String),
        (∀ x, x ∈ st.visited → x ∈ st.stack ∨ x ∈ G) →
        (∀ x, x ∈ (visitFuel deps requested fuel a st).visited →
          x ∈ (visitFuel deps requested fuel a st).stack ∨ x ∈ G)) ∧
      (∀ (l : List String) (st : DfsState) (G : Set String),
        (∀ x, x ∈ st.visited → x ∈ st.stack ∨ x ∈ G) →
        (∀ x, x ∈ (l.foldl (fun s d => visitFuel deps requested fuel d s) st).visited →
          x ∈ (l.foldl (fun s d => visitFuel deps requested fuel d s) st).stack ∨ x ∈ G)) := by
  intro fuel
  induction fuel with
  | zero =>
    constructor
    · intro a st G hinv x hx
      exact hinv x (by simpa [visitFuel] using hx)
    · intro l
      induction l with
      | nil => intro st G hinv x hx; exact hinv x (by simpa using hx)
      | cons d t ih =>
        intro st G hinv x hx
        have : (visitFuel deps requested 0 d st) = st := by simp [visitFuel]
        rw [List.foldl_cons, this] at hx ⊢
        exact ih st G hinv x hx
  | succ f ih =>
    have hvisit : ∀ a st (G : Set String),
        (∀ x, x ∈ st.visited → x ∈ st.stack ∨ x ∈ G) →
        (∀ x, x ∈ (visitFuel deps requested (f + 1) a st).visited →
          x ∈ (visitFuel deps requested (f + 1) a st).stack ∨ x ∈ G) := by
      intro a st G hinv x hx
      by_cases hv : a ∈ st.visited
      · rw [show visitFuel deps requested (f + 1) a st = st by simp [visitFuel, hv]] at hx ⊢
        exact hinv x hx
      · have hdef : visitFuel deps requested (f + 1) a st =
            ⟨(((deps a).filter (fun d => requested.contains d)).foldl
                (fun s d => visitFuel deps requested f d s)
                ⟨a :: st.visited, st.stack⟩).visited,
             (((deps a).filter (fun d => requested.contains d)).foldl
                (fun s d => visitFuel deps requested f d s)
                ⟨a :: st.visited, st.stack⟩).stack ++ [a]⟩ := by
          simp [visitFuel, hv]
        rw [hdef] at hx ⊢
        have hinner : ∀ y, y ∈ (⟨a :: st.visited, st.stack⟩ : DfsState).visited →
            y ∈ (⟨a :: st.visited, st.stack⟩ : DfsState).stack ∨ y ∈ (insert a G) := by
          intro y hy
          rcases List.mem_cons.mp hy with rfl | hy'
          · exact Or.inr (Set.mem_insert _ _)
          · rcases hinv y hy' with h | h
            · exact Or.inl h
            · exact Or.inr (Set.mem_insert_of_mem _ h)
        have := ih.2 ((deps a).filter (fun d => requested.contains d))
          ⟨a :: st.visited, st.stack⟩ (insert a G) hinner x hx
        rcases this with h | h
        · exact Or.inl (List.mem_append_left _ h)
        · rcases Set.mem_insert_iff.mp h with rfl | h
          · exact Or.inl (List.mem_append_right _ (List.mem_singleton_self _))
          · exact Or.inr h
    refine ⟨hvisit, ?_⟩
    intro l
    induction l with
    | nil => intro st G hinv x hx; exact hinv x (by simpa using hx)
    | cons d t ihl =>
      intro st G hinv x hx
      rw [List.foldl_cons] at hx ⊢
      exact ihl _ G (hvisit d st G hinv) x hx

theorem visitFuel_stack_requested (deps : String → List String)
    (requested : List String) :
    ∀ fuel,
      (∀ a st, a ∈ requested → (∀ x, x ∈ st.stack → x ∈ requested) →
        (∀ x, x ∈ (visitFuel deps requested fuel a st).stack → x ∈ requested)) ∧
      (∀ (l : List String) (st : DfsState),
        (∀ d, d ∈ l → d ∈ requested) → (∀ x, x ∈ st.stack → x ∈ requested) →
        (∀ x, x ∈ (l.foldl (fun s d => visitFuel deps requested fuel d s) st).stack →
          x ∈ requested)) := by
  intro fuel
  induction fuel with
  | zero =>
    constructor
    · intro a st _ hst x hx
      exact hst x (by simpa [visitFuel] using hx)
    · intro l
      induction l with
      | nil => intro st _ hst x hx; exact hst x (by simpa using hx)
      | cons d t ih =>
        intro st hl hst x hx
        have : (visitFuel deps requested 0 d st) = st := by simp [visitFuel]
        rw [List.foldl_cons, this] at hx
        exact ih st (fun d' hd' => hl d' (List.mem_cons_of_mem _ hd')) hst x hx
  | succ f ih =>
    have hvisit : ∀ a st, a ∈ requested → (∀ x, x ∈ st.stack → x ∈ requested) →
        (∀ x, x ∈ (visitFuel deps requested (f + 1) a st).stack → x ∈ requested) := by
      intro a st ha hst x hx
      by_cases hv : a ∈ st.visited
      · rw [show visitFuel deps requested (f + 1) a st = st by simp [visitFuel, hv]] at hx
        exact hst x hx
      · have hdef : (visitFuel deps requested (f + 1) a st).stack =
            (((deps a).filter (fun d => requested.contains d)).foldl
                (fun s d => visitFuel deps requested f d s)
                ⟨a :: st.visited, st.stack⟩).stack ++ [a] := by
          simp [visitFuel, hv]
        rw [hdef] at hx
        rcases List.mem_append.mp hx with h | h
        · exact ih.2 ((deps a).filter (fun d => requested.contains d))
            ⟨a :: st.visited, st.stack⟩
            (fun d hd => by
              have := List.mem_filter.mp hd
              simpa using this.2)
            (fun y hy => hst y hy) x h
        · rcases List.mem_singleton.mp h with rfl
          exact ha
    refine ⟨hvisit, ?_⟩
    intro l
    induction l with
    | nil => intro st _ hst x hx; exact hst x (by simpa using hx)
    | cons d t ihl =>
      intro st hl hst x hx
      rw [List.foldl_cons] at hx
      exact ihl _ (fun d' hd' => hl d' (List.mem_cons_of_mem _ hd'))
        (hvisit d st (hl d (List.mem_cons_self _ _)) hst) x hx

theorem dfsStack_complete (deps : String → List String)
    (requested : List String) :
    ∀ x ∈ requested, x ∈ dfsStack deps requested := by
  intro x hx
  have hvis : ∀ (l : List String) (st : DfsState), x ∈ l ∨ x ∈ st.visited →
      x ∈ (l.foldl
        (fun st a => visitFuel deps requested (requested.length + 1) a st)
        st).visited := by
    intro l
    induction l with
    | nil =>
      intro st h
      rcases h with h | h
      · exact absurd h (List.not_mem_nil x)
      · simpa using h
    | cons a t ih =>
      intro st h
      rw [List.foldl_cons]
      rcases h with h | h
      · rcases List.mem_cons.mp h with rfl | h'
        · exact ih _ (Or.inr (visitFuel_marks deps requested _ x st))
        · exact ih _ (Or.inl h')
      · exact ih _ (Or.inr
          (((visitFuel_mono deps requested _).1 a st).1 x h))
  have hin : x ∈ (requested.foldl
      (fun st a => visitFuel deps requested (requested.length + 1) a st)
      ⟨[], []⟩).visited := hvis requested ⟨[], []⟩ (Or.inl hx)
  have hsub : ∀ y, y ∈ (requested.foldl
      (fun st a => visitFuel deps requested (requested.length + 1) a st)
      ⟨[], []⟩).visited →
      y ∈ (requested.foldl
        (fun st a => visitFuel deps requested (requested.length + 1) a st)
        ⟨[], []⟩).stack ∨ y ∈ (∅ : Set String) := by
    have hfold : ∀ (l : List String) (st : DfsState),
        (∀ y, y ∈ st.visited → y ∈ st.stack ∨ y ∈ (∅ : Set String)) →
        ∀ y, y ∈ (l.foldl
          (fun st a => visitFuel deps requested (requested.length + 1) a st)
          st).visited →
          y ∈ (l.foldl
            (fun st a => visitFuel deps requested (requested.length + 1) a st)
            st).stack ∨ y ∈ (∅ : Set String) := by
      intro l
      induction l with
      | nil => intro st hinv y hy; exact hinv y (by simpa using hy)
      | cons a t ih =>
        intro st hinv y hy
        rw [List.foldl_cons] at hy ⊢
        exact ih _ ((visitFuel_visited_in_stack deps requested _).1 a st ∅ hinv) y hy
    exact hfold requested ⟨[], []⟩ (by intro y hy; simp at hy)
  rcases hsub x hin with h | h
  · exact h
  · exact absurd h (Set.not_mem_empty x)

theorem dfsStack_subset (deps : String → List String) (requested : List String) :
    ∀ x ∈ dfsStack deps requested, x ∈ requested := by
  have hfold : ∀ (l : List String) (st : DfsState),
      (∀ d, d ∈ l → d ∈ requested) → (∀ x, x ∈ st.stack → x ∈ requested) →
      ∀ x, x ∈ (l.foldl
        (fun st a => visitFuel deps requested (requested.length + 1) a st)
        st).stack → x ∈ requested := by
    intro l
    induction l with
    | nil => intro st _ hst x hx; exact hst x (by simpa using hx)
    | cons a t ih =>
      intro st hl hst x hx
      rw [List.foldl_cons] at hx
      exact ih _ (fun d hd => hl d (List.mem_cons_of_mem _ hd))
        ((visitFuel_stack_requested deps requested _).1 a st
          (hl a (List.mem_cons_self _ _)) hst) x hx
  intro x hx
  exact hfold requested ⟨[], []⟩ (fun d hd => hd) (by intro y hy; simp at hy) x hx

/-- Relation: `d` is a dependency of `w` within the requested set (the only edges the
level-grouping condition ever waits on). -/
def DepRel (deps : String → List String) (requested : List String)
    (d w : String) : Prop :=
  d ∈ deps w ∧ d ∈ requested ∧ w ∈ requested

/-- The dependency map restricted to the requested set is acyclic: no worker
depends on itself through a chain of requested-set dependencies. -/
def AcyclicDeps (deps : String → List String) (requested : List String) : Prop :=
  ∀ x, ¬ Relation.TransGen (DepRel deps requested) x x

/-- A ranking function witnesses acyclicity. -/
theorem acyclicDeps_of_rank (deps : String → List String)
    (requested : List String) (rank : String → Nat)
    (h : ∀ d w, DepRel deps requested d w → rank d < rank w) :
    AcyclicDeps deps requested := by
  intro x hx
  have hmono : ∀ a b, Relation.TransGen (DepRel deps requested) a b →
      rank a < rank b := by
    intro a b hab
    induction hab with
    | single hs => exact h _ _ hs
    | tail _ hs ih => exact lt_trans ih (h _ _ hs)
  exact absurd (hmono x x hx) (lt_irrefl _)

/-- In an acyclic restricted dependency graph, every nonempty set of
requested workers has a member none of whose requested dependencies lies in
the set. -/
theorem exists_dep_minimal (deps : String → List String)
    (requested : List String) (hac : AcyclicDeps deps requested)
    (l : List String) (hl : l ≠ []) (hsub : ∀ x ∈ l, x ∈ requested) :
    ∃ a ∈ l, ∀ d, DepRel deps requested d a → d ∉ l := by
  classical
  let T := {x // x ∈ requested.toFinset}
  let r : T → T → Prop := fun d w => DepRel deps requested d.1 w.1
  haveI : IsTrans T (Relation.TransGen r) := inferInstance
  haveI hirr : IsIrrefl T (Relation.TransGen r) := by
    constructor
    intro t ht
    exact hac t.1 (Relation.TransGen.lift Subtype.val (fun a b hab => hab) ht)
  have hwf1 : WellFounded (Relation.TransGen r) :=
    Finite.wellFounded_of_trans_of_irrefl _
  have hwf : WellFounded r :=
    Subrelation.wf (fun h => Relation.TransGen.single h) hwf1
  obtain ⟨x0, hx0⟩ : ∃ x, x ∈ l := by
    cases l with
    | nil => exact absurd rfl hl
    | cons y t => exact ⟨y, List.mem_cons_self _ _⟩
  have hx0T : x0 ∈ requested.toFinset := List.mem_toFinset.mpr (hsub x0 hx0)
  obtain ⟨m, hmS, hmin⟩ := hwf.has_min {t : T | t.1 ∈ l} ⟨⟨x0, hx0T⟩, hx0⟩
  refine ⟨m.1, hmS, ?_⟩
  intro d hd hdl
  have hdT : d ∈ requested.toFinset := List.mem_toFinset.mpr hd.2.1
  exact hmin ⟨d, hdT⟩ hdl hd

/-- The grouping pass appends its placements to both accumulators, and every
placed agent comes from the scanned stack. -/
theorem passOnce_fold_append (deps : String → List String)
    (requested : List String) (stack : List String) :
    ∀ (lv ps : List String), ∃ L,
      stack.foldl (fun acc a =>
        if qualifies deps requested acc.2 a then (acc.1 ++ [a], acc.2 ++ [a])
        else acc) (lv, ps) = (lv ++ L, ps ++ L) ∧ ∀ x ∈ L, x ∈ stack := by
  induction stack with
  | nil => intro lv ps; exact ⟨[], by simp⟩
  | cons a t ih =>
    intro lv ps
    rw [List.foldl_cons]
    by_cases hq : qualifies deps requested ps a
    · rcases ih (lv ++ [a]) (ps ++ [a]) with ⟨L, hL, hLs⟩
      refine ⟨[a] ++ L, ?_, ?_⟩
      · rw [if_pos hq, hL]
        simp
      · intro x hx
        rcases List.mem_append.mp hx with h | h
        · rcases List.mem_singleton.mp h with rfl
          exact List.mem_cons_self _ _
        · exact List.mem_cons_of_mem _ (hLs x h)
    · rcases ih lv ps with ⟨L, hL, hLs⟩
      refine ⟨L, ?_, fun x hx => List.mem_cons_of_mem _ (hLs x hx)⟩
      rw [if_neg hq, hL]

theorem passOnce_append (deps : String → List String) (requested : List String)
    (stack pos : List String) :
    (passOnce deps requested stack pos).2 =
      pos ++ (passOnce deps requested stack pos).1 ∧
    ∀ x ∈ (passOnce deps requested stack pos).1, x ∈ stack := by
  rcases passOnce_fold_append deps requested stack [] pos with ⟨L, hL, hLs⟩
  unfold passOnce
  rw [hL]
  simpa using fun x hx => hLs x hx

/-- If a whole pass places nobody, then no stack agent qualifies against the
initial `positioned` set. -/
theorem passOnce_nil_qualifies (deps : String → List String)
    (requested : List String) (stack pos : List String)
    (h : (passOnce deps requested stack pos).1 = []) :
    ∀ a ∈ stack, qualifies deps requested pos a = false := by
  induction stack with
  | nil => intro a ha; exact absurd ha (List.not_mem_nil a)
  | cons b t ih =>
    by_cases hq : qualifies deps requested pos b
    · exfalso
      rcases passOnce_fold_append deps requested t ([] ++ [b]) (pos ++ [b])
        with ⟨L, hL, _⟩
      have : (passOnce deps requested (b :: t) pos).1 = [b] ++ L := by
        unfold passOnce
        rw [List.foldl_cons, if_pos hq, hL]
        simp
      rw [h] at this
      simp at this
    · intro a ha
      rcases List.mem_cons.mp ha with rfl | ha'
      · simpa using hq
      · have hstep : passOnce deps requested (b :: t) pos =
            passOnce deps requested t pos := by
          unfold passOnce
          rw [List.foldl_cons, if_neg hq]
        rw [hstep] at h
        exact ih h a ha'

theorem calcLoop_isSome (deps : String → List String) (requested : List String)
    (hac : AcyclicDeps deps requested) :
    ∀ fuel stack pos levels,
      stack.length ≤ fuel →
      (∀ x ∈ stack, x ∈ requested) →
      (∀ x ∈ requested, x ∈ stack ∨ x ∈ pos) →
      (calcLoop deps requested fuel stack pos levels).isSome := by
  intro fuel
  induction fuel with
  | zero =>
    intro stack pos levels hlen _ _
    have hnil : stack = [] := List.length_eq_zero.mp (Nat.le_zero.mp hlen)
    subst hnil
    simp [calcLoop]
  | succ f ih =>
    intro stack pos levels hlen hsub hcov
    by_cases hst : stack = []
    · subst hst
      simp [calcLoop]
    · obtain ⟨a, ha, hamin⟩ := exists_dep_minimal deps requested hac stack hst hsub
      have hq : qualifies deps requested pos a = true := by
        unfold qualifies
        rw [List.all_eq_true]
        intro d hd
        by_cases hdr : d ∈ requested
        · have hdns : d ∉ stack := hamin d ⟨hd, hdr, hsub a ha⟩
          rcases hcov d hdr with h | h
          · exact absurd h hdns
          · simp [h]
        · simp [hdr]
      have hlevel : (passOnce deps requested stack pos).1 ≠ [] := by
        intro hnil
        have := passOnce_nil_qualifies deps requested stack pos hnil a ha
        rw [hq] at this
        exact absurd this (by simp)
      rcases passOnce_append deps requested stack pos with ⟨hpos2, hlsub⟩
      have hempty : stack.isEmpty = false := by
        simp [List.isEmpty_iff, hst]
      have hlempty : (passOnce deps requested stack pos).1.isEmpty = false := by
        simp [List.isEmpty_iff, hlevel]
      have hstep : calcLoop deps requested (f + 1) stack pos levels =
          calcLoop deps requested f
            (stack.filter (fun a => !(passOnce deps requested stack pos).1.contains a))
            (passOnce deps requested stack pos).2
            (levels ++ [(passOnce deps requested stack pos).1]) := by
        rw [calcLoop]
        simp only [hempty, Bool.false_eq_true, if_false, hlempty]
      rw [hstep]
      obtain ⟨a0, ha0⟩ : ∃ y, y ∈ (passOnce deps requested stack pos).1 := by
        cases hcase : (passOnce deps requested stack pos).1 with
        | nil => exact absurd hcase hlevel
        | cons y t => exact ⟨y, by simp [hcase]⟩
      have hshrink : (stack.filter
          (fun a => !(passOnce deps requested stack pos).1.contains a)).length <
          stack.length := by
        rw [List.length_filter_lt_length_iff_exists]
        exact ⟨a0, hlsub a0 ha0, by simp [ha0]⟩
      apply ih
      · omega
      · intro x hx
        exact hsub x (List.mem_of_mem_filter hx)
      · intro x hxr
        rcases hcov x hxr with h | h
        · by_cases hlev : x ∈ (passOnce deps requested stack pos).1
          · right
            rw [hpos2]
            exact List.mem_append_right _ hlev
          · left
            rw [List.mem_filter]
            exact ⟨h, by simp [hlev]⟩
        · right
          rw [hpos2]
          exact List.mem_append_left _ h

/-- A two-worker dependency cycle: `a` needs `b` and `b` needs `a`. -/
def cycDeps : String → List String := fun x =>
  if x = "a" then ["b"] else if x = "b" then ["a"] else []

/-- Claim C9 — counterexample.  For the two-worker cycle the embedding
evaluates to `none`, which by construction of `calcLoop` marks the diverging
run: the second conjunct shows the very first grouping pass places nobody, so
(`passOnce_nil_pos`) the Python `while stack:` loop repeats an identical
iteration forever.  The depth-first *visit* does terminate (its guard marks
each agent once), but `calculate_execution_order` as a whole does not return.
-/
theorem calcExecutionOrder_cycle_diverges :
    calcExecutionOrder cycDeps ["a", "b"] = none ∧
    (passOnce cycDeps ["a", "b"] (dfsStack cycDeps ["a", "b"]) []).1 = [] := by
  constructor
  · rfl
  · rfl

/-- Claim C9 — amended.  The mark-and-append visit guard makes the depth-first
visit terminate on every input, and `calculate_execution_order` terminates
and returns a list of levels whenever the dependency map restricted to the
requested set is acyclic; but when the requested workers contain a dependency
cycle the level-grouping `while` loop makes no progress and never terminates
(see the counterexample). -/
theorem calcExecutionOrder_terminates (deps : String → List String)
    (requested : List String) (hac : AcyclicDeps deps requested) :
    (calcExecutionOrder deps requested).isSome := by
  unfold calcExecutionOrder
  apply calcLoop_isSome deps requested hac
  · exact le_refl _
  · exact dfsStack_subset deps requested
  · intro x hx
    exact Or.inl (dfsStack_complete deps requested x hx)

/-- Witness for `calcExecutionOrder_terminates` on the repository's own
acyclic dependency map (acyclicity discharged through a ranking function).
-/
theorem calcExecutionOrder_terminates_witness :
    (calcExecutionOrder demoDeps
      ["Domain Specialist", "Web Harvester", "Fact Validator"]).isSome :=
  calcExecutionOrder_terminates demoDeps
    ["Domain Specialist", "Web Harvester", "Fact Validator"]
    (acyclicDeps_of_rank _ _
      (fun w => if w = "Fact Validator" then 1 else 0)
      (by
        intro d w hdw
        rcases hdw with ⟨hd, hdr, hwr⟩
        simp only [demoDeps] at hd
        rcases List.mem_cons.mp hwr with rfl | hw2
        · simp at hd
        rcases List.mem_cons.mp hw2 with rfl | hw3
        · simp at hd
        rcases List.mem_cons.mp hw3 with rfl | hw4
        · simp only [if_pos] at hd ⊢
          have hd' : d = "Domain Specialist" ∨ d = "Web Harvester" := by
            simpa using hd
          rcases hd' with rfl | rfl
          · simp
          · simp
        · simp at hw4))

/-! ### PromptCache eviction: C6 -/

theorem alGet_eq_none_iff {β : Type} (l : List (String × β)) (k : String) :
    alGet l k = none ↔ k ∉ l.map (·.1) := by
  unfold alGet
  rw [Option.map_eq_none']
  rw [List.find?_eq_none]
  constructor
  · intro h hk
    rcases List.mem_map.mp hk with ⟨p, hp, hpk⟩
    exact absurd hpk (by simpa using h p hp)
  · intro h p hp
    simp only [decide_eq_true_eq]
    intro hpk
    exact h (List.mem_map.mpr ⟨p, hp, hpk⟩)

theorem alInsert_fresh {β : Type} (l : List (String × β)) (k : String) (v : β)
    (h : k ∉ l.map (·.1)) : alInsert l k v = l ++ [(k, v)] := by
  unfold alInsert
  have hfind : l.find? (fun p => p.1 = k) = none := by
    rw [List.find?_eq_none]
    intro p hp
    simp only [decide_eq_true_eq]
    intro hpk
    exact h (List.mem_map.mpr ⟨p, hp, hpk⟩)
  rw [hfind]
  simp

theorem map_fst_filter_keys {β : Type} (l : List (String × β)) (R : List String) :
    (l.filter (fun p => !R.contains p.1)).map (·.1) =
      (l.map (·.1)).filter (fun k => !R.contains k) := by
  induction l with
  | nil => simp
  | cons p t ih =>
    by_cases hm : p.1 ∈ R
    · simp only [List.filter_cons, List.map_cons]
      simp [hm]
      simpa using ih
    · simp only [List.filter_cons, List.map_cons]
      simp [hm]
      simpa using ih

/-- The cache key written by an operation (none for lookups). -/
def opStoreKey : CacheOp → Option String
  | .store n q _ _ _ => some (generateKey n q)
  | .lookup _ _ _ => none

def storeKeys (ops : List CacheOp) : List String := ops.filterMap opStoreKey

/-- A store that clears the 0.8/0.8 admission bar on its own (first)
observation; lookups impose nothing. -/
def admittedStore : CacheOp → Prop
  | .store _ _ _ s q => s = true ∧ 4/5 ≤ q
  | .lookup _ _ _ => True

theorem store_fresh_admitted (st : CacheState) (n q p : String) (qual : ℚ)
    (hfresh : generateKey n q ∉ st.cache.map (·.1))
    (hsr : alGet st.successRates (generateKey n q) = none)
    (hq : 4/5 ≤ qual) :
    promptCacheStore st n q p true qual =
      (if st.maxSize < st.cache.length + 1 then
        evictLeastAccessed
          { st with
            successRates :=
              alInsert st.successRates (generateKey n q) ⟨1, 1, qual⟩
            cache := st.cache ++
              [(generateKey n q, ⟨n, q, p, 1, qual⟩)] }
      else
        { st with
          successRates :=
            alInsert st.successRates (generateKey n q) ⟨1, 1, qual⟩
          cache := st.cache ++
            [(generateKey n q, ⟨n, q, p, 1, qual⟩)] }) := by
  unfold promptCacheStore
  simp only [hsr, Option.getD_none, if_true, Nat.cast_one, div_one]
  rw [if_pos (⟨by norm_num, hq⟩ : (4:ℚ)/5 ≤ 1 ∧ (4:ℚ)/5 ≤ qual)]
  rw [alInsert_fresh _ _ _ hfresh]
  simp

theorem promptCacheGet_state (st : CacheState) (n q : String) (th : ℚ) :
    (promptCacheGet st n q th).2.cache = st.cache ∧
    (promptCacheGet st n q th).2.successRates = st.successRates ∧
    (promptCacheGet st n q th).2.maxSize = st.maxSize := by
  unfold promptCacheGet
  cases halg : alGet st.cache (generateKey n q) with
  | some e => simp [halg]
  | none =>
    simp only [halg]
    cases hbest : (st.cache.foldl
      (fun (acc : Option (String × CacheEntry) × ℚ) p =>
        if p.2.agentName ≠ n then acc
        else if th ≤ jaccard q p.2.query ∧ acc.2 < jaccard q p.2.query then
          (some p, jaccard q p.2.query)
        else acc)
      (none, 0)).1 with
    | some p =>
      simp only [hbest]
      simp
    | none =>
      simp only [hbest]
      simp

theorem runCacheOps_prefix (c : Nat) :
    ∀ (ops : List CacheOp) (st : CacheState),
      st.maxSize = c →
      (∀ k, (alGet st.successRates k).isSome = true ↔ k ∈ st.cache.map (·.1)) →
      ((st.cache.map (·.1)) ++ storeKeys ops).Nodup →
      (st.cache.map (·.1)).length + (storeKeys ops).length ≤ c →
      (∀ op ∈ ops, admittedStore op) →
      (ops.foldl cacheStep st).cache.map (·.1) =
        st.cache.map (·.1) ++ storeKeys ops ∧
      (ops.foldl cacheStep st).maxSize = c ∧
      (∀ k, (alGet (ops.foldl cacheStep st).successRates k).isSome = true ↔
        k ∈ (ops.foldl cacheStep st).cache.map (·.1)) := by
  intro ops
  induction ops with
  | nil =>
    intro st hmax hsr _ _ _
    refine ⟨by simp [storeKeys], by simpa using hmax, by simpa using hsr⟩
  | cons op t ih =>
    intro st hmax hsr hnd hlen hadm
    cases op with
    | lookup n' q' th =>
      rcases promptCacheGet_state st n' q' th with ⟨hc, hs, hm⟩
      have hkeys : storeKeys (CacheOp.lookup n' q' th :: t) = storeKeys t := by
        simp [storeKeys, opStoreKey]
      rw [List.foldl_cons]
      have := ih (cacheStep st (CacheOp.lookup n' q' th))
        (by simpa [cacheStep, hm] using hmax)
        (by simpa [cacheStep, hs, hc] using hsr)
        (by rw [cacheStep]; rw [hc]; rw [hkeys] at hnd; exact hnd)
        (by rw [cacheStep]; rw [hc]; rw [hkeys] at hlen; exact hlen)
        (fun o ho => hadm o (List.mem_cons_of_mem _ ho))
      rcases this with ⟨h1, h2, h3⟩
      refine ⟨?_, h2, h3⟩
      rw [h1, cacheStep, hc, hkeys]
    | store n' q' p' s' qual' =>
      rcases hadm _ (List.mem_cons_self _ _) with ⟨hs', hq'⟩
      subst hs'
      have hkeys : storeKeys (CacheOp.store n' q' p' true qual' :: t) =
          generateKey n' q' :: storeKeys t := by
        simp [storeKeys, opStoreKey]
      rw [hkeys] at hnd hlen
      have hfresh : generateKey n' q' ∉ st.cache.map (·.1) := by
        intro hmem
        have := (List.nodup_append.mp hnd).2.2
        exact this hmem (List.mem_cons_self _ _)
      have hsrnone : alGet st.successRates (generateKey n' q') = none := by
        rw [← Option.not_isSome_iff_eq_none]
        intro hsome
        exact hfresh ((hsr _).mp (by simpa using hsome))
      have hnoevict : ¬ (st.maxSize < st.cache.length + 1) := by
        have h1 : (st.cache.map (·.1)).length = st.cache.length :=
          List.length_map _ _
        have h2 : 1 ≤ (generateKey n' q' :: storeKeys t).length := by simp
        simp only [List.length_cons] at hlen
        omega
      have hstep : cacheStep st (CacheOp.store n' q' p' true qual') =
          { st with
            successRates :=
              alInsert st.successRates (generateKey n' q') ⟨1, 1, qual'⟩
            cache := st.cache ++
              [(generateKey n' q', ⟨n', q', p', 1, qual'⟩)] } := by
        rw [cacheStep, store_fresh_admitted st n' q' p' qual' hfresh hsrnone hq',
          if_neg hnoevict]
      rw [List.foldl_cons, hstep]
      set st2 : CacheState :=
        { st with
          successRates :=
            alInsert st.successRates (generateKey n' q') ⟨1, 1, qual'⟩
          cache := st.cache ++
            [(generateKey n' q', ⟨n', q', p', 1, qual'⟩)] } with hst2
      have hmap : st2.cache.map (·.1) =
          st.cache.map (·.1) ++ [generateKey n' q'] := by
        rw [hst2]
        simp
      have hmax2 : st2.maxSize = c := by
        rw [hst2]
        simpa using hmax
      have hsr2 : ∀ k, (alGet st2.successRates k).isSome = true ↔
          k ∈ st2.cache.map (·.1) := by
        intro k
        rw [hmap]
        by_cases hk : k = generateKey n' q'
        · subst hk
          have hself : alGet st2.successRates (generateKey n' q') =
              some ⟨1, 1, qual'⟩ := by
            rw [hst2]
            exact alGet_alInsert_self _ _ _
          rw [hself]
          simp
        · have heq : alGet st2.successRates k = alGet st.successRates k := by
            rw [hst2]
            exact alGet_alInsert_ne _ _ _ _ (fun h => hk h.symm)
          rw [heq, hsr k]
          constructor
          · exact fun h => List.mem_append_left _ h
          · intro h
            rcases List.mem_append.mp h with h | h
            · exact h
            · exact absurd (List.mem_singleton.mp h) hk
      have hnd2 : (st2.cache.map (·.1) ++ storeKeys t).Nodup := by
        rw [hmap, List.append_assoc]
        simpa using hnd
      have hlen2 : (st2.cache.map (·.1)).length + (storeKeys t).length ≤ c := by
        rw [hmap]
        simp only [List.length_cons] at hlen
        simp only [List.length_append, List.length_cons, List.length_nil]
        omega
      obtain ⟨h1, h2, h3⟩ := ih st2 hmax2 hsr2 hnd2 hlen2
        (fun o ho => hadm o (List.mem_cons_of_mem _ ho))
      refine ⟨?_, h2, h3⟩
      rw [h1, hmap, hkeys, List.append_assoc]
      rfl

theorem evict_facts (st2 : CacheState) (c : Nat) (hc : 1 ≤ c)
    (hmax : st2.maxSize = c)
    (hnd : (st2.cache.map (·.1)).Nodup)
    (hlen : st2.cache.length = c + 1) :
    (evictLeastAccessed st2).cache.length = c + 1 - max 1 (c / 10) ∧
    (∀ k ∈ st2.cache.map (·.1),
      k ∉ (evictLeastAccessed st2).cache.map (·.1) →
      ∀ k' ∈ (evictLeastAccessed st2).cache.map (·.1),
        alGetD st2.accessCounts k 0 ≤ alGetD st2.accessCounts k' 0) ∧
    (∀ k ∈ st2.cache.map (·.1),
      (∀ k' ∈ st2.cache.map (·.1), k' ≠ k →
        alGetD st2.accessCounts k' 0 < alGetD st2.accessCounts k 0) →
      k ∈ (evictLeastAccessed st2).cache.map (·.1)) := by
  have hFc : (evictLeastAccessed st2).cache =
      st2.cache.filter (fun p =>
        !((pySorted (fun k1 k2 => decide (alGetD st2.accessCounts k1 0 ≤
            alGetD st2.accessCounts k2 0)) (st2.cache.map (·.1))).take
          (max 1 (c / 10))).contains p.1) := by
    unfold evictLeastAccessed
    rw [hmax]
  set S := pySorted (fun k1 k2 => decide (alGetD st2.accessCounts k1 0 ≤
      alGetD st2.accessCounts k2 0)) (st2.cache.map (·.1)) with hS
  set R := S.take (max 1 (c / 10)) with hR
  set D := S.drop (max 1 (c / 10)) with hD
  have hFkeys : (evictLeastAccessed st2).cache.map (·.1) =
      (st2.cache.map (·.1)).filter (fun k => !R.contains k) := by
    rw [hFc]
    exact map_fst_filter_keys _ _
  have hperm : S.Perm (st2.cache.map (·.1)) := pySorted_perm _ _
  have hndS : S.Nodup := hperm.nodup_iff.mpr hnd
  have hlenS : S.length = c + 1 := by
    rw [hperm.length_eq, List.length_map, hlen]
  have hsplit : R ++ D = S := List.take_append_drop _ _
  have hrc : max 1 (c / 10) ≤ c := Nat.max_le.mpr ⟨hc, Nat.div_le_self _ _⟩
  have hlenR : R.length = max 1 (c / 10) := by
    rw [hR, List.length_take]
    omega
  have hlenD : D.length = c + 1 - max 1 (c / 10) := by
    rw [hD, List.length_drop, hlenS]
  have hdisj : ∀ x ∈ D, x ∉ R := by
    rw [← hsplit] at hndS
    rcases List.nodup_append.mp hndS with ⟨_, _, hdj⟩
    intro x hxD hxR
    exact hdj hxR hxD
  have hpair : S.Pairwise (fun k1 k2 =>
      alGetD st2.accessCounts k1 0 ≤ alGetD st2.accessCounts k2 0) := by
    have := pySorted_pairwise (fun k1 k2 => decide (alGetD st2.accessCounts k1 0 ≤
        alGetD st2.accessCounts k2 0))
      (fun x y z hxy hyz => by
        simp only [decide_eq_true_eq] at *
        omega)
      (fun x y => by
        simp only [decide_eq_true_eq]
        omega)
      (st2.cache.map (·.1))
    exact this.imp (fun h => by simpa using h)
  have hcross : ∀ a ∈ R, ∀ b ∈ D,
      alGetD st2.accessCounts a 0 ≤ alGetD st2.accessCounts b 0 := by
    rw [← hsplit] at hpair
    exact (List.pairwise_append.mp hpair).2.2
  have hfilter_perm : ((st2.cache.map (·.1)).filter (fun k => !R.contains k)).Perm D := by
    have h1 : ((st2.cache.map (·.1)).filter (fun k => !R.contains k)).Perm
        (S.filter (fun k => !R.contains k)) := (hperm.symm).filter _
    have h2 : S.filter (fun k => !R.contains k) = D := by
      rw [← hsplit, List.filter_append]
      have hRnil : R.filter (fun k => !R.contains k) = [] := by
        rw [List.filter_eq_nil_iff]
        intro a ha
        simp [ha]
      have hDall : D.filter (fun k => !R.contains k) = D := by
        rw [List.filter_eq_self]
        intro a ha
        simp [hdisj a ha]
      rw [hRnil, hDall]
      simp
    rw [← h2]
    exact h1
  refine ⟨?_, ?_, ?_⟩
  · have := hfilter_perm.length_eq
    rw [← hFkeys] at this
    rw [← List.length_map _ (·.1), this, hlenD]
  · intro k hk hknot k' hk'
    have hkS : k ∈ S := hperm.mem_iff.mpr hk
    have hkR : k ∈ R := by
      rcases List.mem_append.mp (by rw [hsplit]; exact hkS) with h | h
      · exact h
      · exfalso
        apply hknot
        rw [hFkeys]
        exact hfilter_perm.mem_iff.mpr h
    have hk'D : k' ∈ D := by
      rw [hFkeys] at hk'
      exact hfilter_perm.mem_iff.mp hk'
    exact hcross k hkR k' hk'D
  · intro k hk hmaxk
    have hkS : k ∈ S := hperm.mem_iff.mpr hk
    rcases List.mem_append.mp (by rw [hsplit]; exact hkS) with hkR | hkD
    · exfalso
      have hDne : D ≠ [] := by
        intro hnil
        rw [hnil] at hlenD
        simp at hlenD
        omega
      obtain ⟨d, hd⟩ : ∃ d, d ∈ D := by
        cases hcase : D with
        | nil => exact absurd hcase hDne
        | cons y t => exact ⟨y, by simp [hcase]⟩
      have hdK : d ∈ st2.cache.map (·.1) := by
        apply hperm.mem_iff.mp
        rw [← hsplit]
        exact List.mem_append_right _ hd
      have hdk : d ≠ k := by
        intro hEq
        exact hdisj d hd (hEq ▸ hkR)
      have h1 := hcross k hkR d hd
      have h2 := hmaxk d hdK hdk
      omega
    · rw [hFkeys]
      exact hfilter_perm.mem_iff.mpr hkD

/-- Claim C6 — starting from an empty cache of capacity `c ≥ 1`, a sequence of
`c` admitted stores with pairwise-distinct keys (lookups may be interleaved,
accruing access counts), followed by a `(c+1)`-st admitted store with a fresh
key, triggers exactly one eviction, and afterwards: the number of retained
entries lies between `c − ⌊c·0.1⌋` and `c`; every evicted key's access count
(at eviction time, i.e. in the state before the final store) is at most every
retained key's; and a key holding the strictly highest access count is never
evicted. -/
theorem promptCache_eviction (c : Nat) (hc : 1 ≤ c) (pre : List CacheOp)
    (n q p : String) (qual : ℚ) (hq : 4/5 ≤ qual)
    (hadm : ∀ op ∈ pre, admittedStore op)
    (hnd : (storeKeys pre ++ [generateKey n q]).Nodup)
    (hcount : (storeKeys pre).length = c) :
    (c - c / 10 ≤
        (runCacheOps c (pre ++ [CacheOp.store n q p true qual])).cache.length ∧
      (runCacheOps c (pre ++ [CacheOp.store n q p true qual])).cache.length ≤ c) ∧
    (∀ k ∈ storeKeys pre ++ [generateKey n q],
      k ∉ (runCacheOps c (pre ++ [CacheOp.store n q p true qual])).cache.map (·.1) →
      ∀ k' ∈ (runCacheOps c (pre ++ [CacheOp.store n q p true qual])).cache.map (·.1),
        alGetD (runCacheOps c pre).accessCounts k 0 ≤
          alGetD (runCacheOps c pre).accessCounts k' 0) ∧
    (∀ k ∈ storeKeys pre ++ [generateKey n q],
      (∀ k' ∈ storeKeys pre ++ [generateKey n q], k' ≠ k →
        alGetD (runCacheOps c pre).accessCounts k' 0 <
          alGetD (runCacheOps c pre).accessCounts k 0) →
      k ∈ (runCacheOps c (pre ++ [CacheOp.store n q p true qual])).cache.map (·.1)) := by
  have hndpre : (storeKeys pre).Nodup := (List.nodup_append.mp hnd).1
  obtain ⟨hkeysPre, hmaxPre, hsrPre⟩ := runCacheOps_prefix c pre (emptyCache c)
    (by simp [emptyCache])
    (by intro k; simp [alGet, emptyCache])
    (by simpa [emptyCache] using hndpre)
    (by simp [emptyCache]; omega)
    hadm
  rw [show pre.foldl cacheStep (emptyCache c) = runCacheOps c pre from rfl]
    at hkeysPre hmaxPre hsrPre
  simp only [emptyCache] at hkeysPre
  rw [show ((⟨[], [], [], c⟩ : CacheState)).cache.map (·.1) = [] from rfl] at hkeysPre
  rw [List.nil_append] at hkeysPre
  have hfresh : generateKey n q ∉ (runCacheOps c pre).cache.map (·.1) := by
    rw [hkeysPre]
    intro hmem
    rcases List.nodup_append.mp hnd with ⟨_, _, hdj⟩
    exact hdj hmem (List.mem_singleton_self _)
  have hsrnone : alGet (runCacheOps c pre).successRates (generateKey n q) = none := by
    rw [← Option.not_isSome_iff_eq_none]
    intro hsome
    exact hfresh ((hsrPre _).mp (by simpa using hsome))
  have hlenPre : (runCacheOps c pre).cache.length = c := by
    have := congrArg List.length hkeysPre
    rw [List.length_map] at this
    rw [this, hcount]
  have hfinal : runCacheOps c (pre ++ [CacheOp.store n q p true qual]) =
      evictLeastAccessed
        { runCacheOps c pre with
          successRates := alInsert (runCacheOps c pre).successRates
            (generateKey n q) ⟨1, 1, qual⟩
          cache := (runCacheOps c pre).cache ++
            [(generateKey n q, ⟨n, q, p, 1, qual⟩)] } := by
    rw [runCacheOps, List.foldl_append]
    rw [show pre.foldl cacheStep (emptyCache c) = runCacheOps c pre from rfl]
    rw [List.foldl_cons, List.foldl_nil]
    rw [show cacheStep (runCacheOps c pre) (CacheOp.store n q p true qual) =
      promptCacheStore (runCacheOps c pre) n q p true qual from rfl]
    rw [store_fresh_admitted _ _ _ _ _ hfresh hsrnone hq]
    rw [if_pos (by rw [hmaxPre, hlenPre]; omega)]
  set st2 : CacheState :=
    { runCacheOps c pre with
      successRates := alInsert (runCacheOps c pre).successRates
        (generateKey n q) ⟨1, 1, qual⟩
      cache := (runCacheOps c pre).cache ++
        [(generateKey n q, ⟨n, q, p, 1, qual⟩)] } with hst2
  have hmap2 : st2.cache.map (·.1) = storeKeys pre ++ [generateKey n q] := by
    rw [hst2]
    simp [hkeysPre]
  have hcnt2 : st2.accessCounts = (runCacheOps c pre).accessCounts := by
    rw [hst2]
  obtain ⟨e1, e2, e3⟩ := evict_facts st2 c hc
    (by rw [hst2]; simpa using hmaxPre)
    (by rw [hmap2]; exact hnd)
    (by
      rw [hst2]
      simp only [List.length_append, List.length_cons, List.length_nil]
      omega)
  rw [hfinal]
  rw [hmap2] at e2 e3
  rw [hcnt2] at e2 e3
  refine ⟨?_, e2, e3⟩
  rw [e1]
  by_cases h10 : c / 10 = 0
  · rw [h10]
    simp
  · have : max 1 (c / 10) = c / 10 := Nat.max_eq_right (by omega)
    rw [this]
    have : c / 10 ≤ c := Nat.div_le_self _ _
    omega

/-- Distinct worker names give distinct cache keys (the md5 content strings
differ). -/
theorem generateKey_ne_of_name_ne (n1 n2 q : String) (h : n1 ≠ n2) :
    generateKey n1 q ≠ generateKey n2 q := by
  intro hEq
  apply h
  apply String.ext
  have hdata := congrArg String.data hEq
  unfold generateKey at hdata
  rw [String.data_append, String.data_append, String.data_append,
    String.data_append] at hdata
  exact List.append_cancel_right (List.append_cancel_right hdata)

/-- Witness for `promptCache_eviction`: capacity 1, two admitted stores
under distinct worker names. -/
theorem promptCache_eviction_witness :
    (1 - 1 / 10 ≤
        (runCacheOps 1 ([CacheOp.store "w1" "qq" "p1" true 1] ++
          [CacheOp.store "w2" "qq" "p2" true 1])).cache.length ∧
      (runCacheOps 1 ([CacheOp.store "w1" "qq" "p1" true 1] ++
        [CacheOp.store "w2" "qq" "p2" true 1])).cache.length ≤ 1) ∧
    (∀ k ∈ storeKeys [CacheOp.store "w1" "qq" "p1" true 1] ++ [generateKey "w2" "qq"],
      k ∉ (runCacheOps 1 ([CacheOp.store "w1" "qq" "p1" true 1] ++
        [CacheOp.store "w2" "qq" "p2" true 1])).cache.map (·.1) →
      ∀ k' ∈ (runCacheOps 1 ([CacheOp.store "w1" "qq" "p1" true 1] ++
        [CacheOp.store "w2" "qq" "p2" true 1])).cache.map (·.1),
        alGetD (runCacheOps 1 [CacheOp.store "w1" "qq" "p1" true 1]).accessCounts k 0 ≤
          alGetD (runCacheOps 1 [CacheOp.store "w1" "qq" "p1" true 1]).accessCounts k' 0) ∧
    (∀ k ∈ storeKeys [CacheOp.store "w1" "qq" "p1" true 1] ++ [generateKey "w2" "qq"],
      (∀ k' ∈ storeKeys [CacheOp.store "w1" "qq" "p1" true 1] ++ [generateKey "w2" "qq"],
        k' ≠ k →
        alGetD (runCacheOps 1 [CacheOp.store "w1" "qq" "p1" true 1]).accessCounts k' 0 <
          alGetD (runCacheOps 1 [CacheOp.store "w1" "qq" "p1" true 1]).accessCounts k 0) →
      k ∈ (runCacheOps 1 ([CacheOp.store "w1" "qq" "p1" true 1] ++
        [CacheOp.store "w2" "qq" "p2" true 1])).cache.map (·.1)) :=
  promptCache_eviction 1 (by decide) [CacheOp.store "w1" "qq" "p1" true 1]
    "w2" "qq" "p2" 1 (by norm_num)
    (by
      intro op hop
      rcases List.mem_singleton.mp hop with rfl
      exact ⟨rfl, by norm_num⟩)
    (by
      have hne := generateKey_ne_of_name_ne "w1" "w2" "qq" (by decide)
      simp [storeKeys, opStoreKey, hne])
    (by simp [storeKeys, opStoreKey])
